import Mathlib

/-!
Verification development for the airflow-migrator repository.

Shallow embedding of the three core subsystems:
* the Fernet token codec (`internal/core/services/fernet.go`),
* the encrypted secret store (`internal/secrets/store.go`),
* the import orchestration (`internal/core/core.go` together with the
  CSV / database layer).

Go strings and byte slices are modelled as lists of byte values
(`List Nat`, each element below 256).  External cryptographic
primitives from the Go standard library (AES block cipher,
HMAC-SHA-256, AES-GCM, Argon2id) are modelled as abstract functions;
the standard functional contracts they satisfy (a block cipher is a
permutation, a MAC is a deterministic 32-byte function, GCM
authenticates) appear as explicit hypotheses of the theorems that
need them.  Everything written in the repository itself — the token
layout, CBC chaining, PKCS#7 padding, base64 coding, collision
handling, the vault state machine — is embedded concretely and
executably.
-/

/-- Go strings and byte slices are byte sequences. -/
abbrev GoStr := List Nat

/-- Predicate stating every element of a byte sequence is a byte value. -/
def ByteOk (s : GoStr) : Prop := ∀ x ∈ s, x < 256

instance (s : GoStr) : Decidable (ByteOk s) := by
  unfold ByteOk; infer_instance

/-! ### Base64 (Go `encoding/base64`, padded, URL-safe and standard alphabets)

`DecodeString` in Go tries the URL-safe alphabet first in `NewFernet`
and `Decrypt`; the decoder itself skips `\r` and `\n`, requires
complete 4-character quanta, allows `=` padding only at the end, and
does not reject non-canonical trailing bits. -/

/-- Character-class to 6-bit value for a base64 alphabet whose
characters 62 and 63 are `c62` and `c63` (bytes). -/
def b64Idx (c62 c63 : Nat) (b : Nat) : Option Nat :=
  if 65 ≤ b ∧ b ≤ 90 then some (b - 65)
  else if 97 ≤ b ∧ b ≤ 122 then some (b - 97 + 26)
  else if 48 ≤ b ∧ b ≤ 57 then some (b - 48 + 52)
  else if b = c62 then some 62
  else if b = c63 then some 63
  else none

/-- Standard alphabet index function (`+` = 43, `/` = 47). -/
def stdIdx : Nat → Option Nat := b64Idx 43 47

/-- URL-safe alphabet index function (`-` = 45, `_` = 95). -/
def urlIdx : Nat → Option Nat := b64Idx 45 95

/-- Encoding direction: 6-bit value to alphabet byte. -/
def b64Alpha (c62 c63 : Nat) (v : Nat) : Nat :=
  if v < 26 then 65 + v
  else if v < 52 then 97 + (v - 26)
  else if v < 62 then 48 + (v - 52)
  else if v = 62 then c62
  else c63

/-- Standard alphabet. -/
def stdAlpha : Nat → Nat := b64Alpha 43 47

/-- URL-safe alphabet. -/
def urlAlpha : Nat → Nat := b64Alpha 45 95

/-- Base64 encoding of a byte list, three bytes per four output
characters, padded with `=` (byte 61). -/
def encGroups (g : Nat → Nat) : List Nat → List Nat
  | [] => []
  | [b1] => [g (b1 / 4), g (b1 % 4 * 16), 61, 61]
  | [b1, b2] => [g (b1 / 4), g (b1 % 4 * 16 + b2 / 16), g (b2 % 16 * 4), 61]
  | b1 :: b2 :: b3 :: rest =>
      g (b1 / 4) :: g (b1 % 4 * 16 + b2 / 16) :: g (b2 % 16 * 4 + b3 / 64) :: g (b3 % 64) ::
        encGroups g rest

/-- Base64 decoding of a cleansed character-byte list, four characters
per quantum, `=` (byte 61) only in the final quantum. -/
def decGroups (f : Nat → Option Nat) : List Nat → Option (List Nat)
  | [] => some []
  | a :: b :: c :: d :: rest =>
      match f a, f b with
      | some va, some vb =>
        if c = 61 then
          if d = 61 ∧ rest = [] then some [va * 4 + vb / 16] else none
        else
          match f c with
          | some vc =>
            if d = 61 then
              if rest = [] then some [va * 4 + vb / 16, vb % 16 * 16 + vc / 4] else none
            else
              match f d with
              | some vd =>
                match decGroups f rest with
                | some tl =>
                    some ((va * 4 + vb / 16) :: (vb % 16 * 16 + vc / 4) :: (vc % 4 * 64 + vd) :: tl)
                | none => none
              | none => none
          | none => none
      | _, _ => none
  | _ => none

/-- Full decode: Go's decoder skips carriage returns and newlines. -/
def base64DecodeBytes (f : Nat → Option Nat) (s : GoStr) : Option GoStr :=
  decGroups f (s.filter fun b => !(b == 10) && !(b == 13))

/-- Full encode. -/
def base64EncodeBytes (g : Nat → Nat) (s : GoStr) : GoStr :=
  encGroups g s

/-- Model of `services.NewFernet` restricted to its validation outcome:
URL-safe decode is attempted first, the standard alphabet only if that
fails, and the decoded key must be exactly 32 bytes. -/
def NewFernetOk (base64Key : GoStr) : Bool :=
  match base64DecodeBytes urlIdx base64Key with
  | some key => key.length == 32
  | none =>
    match base64DecodeBytes stdIdx base64Key with
    | some key => key.length == 32
    | none => false

/-- Model of `services.ValidateKey`. -/
def ValidateKey (key : GoStr) : Bool := NewFernetOk key

/-! ### Base64 lemmas -/

theorem urlIdx_urlAlpha : ∀ v, v < 64 → urlIdx (urlAlpha v) = some v := by decide

theorem stdIdx_stdAlpha : ∀ v, v < 64 → stdIdx (stdAlpha v) = some v := by decide

theorem urlAlpha_notPad : ∀ v, v < 64 → urlAlpha v ≠ 61 ∧ urlAlpha v ≠ 10 ∧ urlAlpha v ≠ 13 := by
  decide

theorem stdAlpha_notPad : ∀ v, v < 64 → stdAlpha v ≠ 61 ∧ stdAlpha v ≠ 10 ∧ stdAlpha v ≠ 13 := by
  decide

theorem decGroups_encGroups (f : Nat → Option Nat) (g : Nat → Nat)
    (hfg : ∀ v, v < 64 → f (g v) = some v) (hne : ∀ v, v < 64 → g v ≠ 61) :
    ∀ bs : List Nat, ByteOk bs → decGroups f (encGroups g bs) = some bs
  | [], _ => rfl
  | [b1], h => by
    have hb1 : b1 < 256 := h b1 (by simp)
    have h1 := hfg (b1 / 4) (by omega)
    have h2 := hfg (b1 % 4 * 16) (by omega)
    simp only [encGroups, decGroups, h1, h2, if_pos rfl, and_self, if_true]
    have e1 : b1 / 4 * 4 + b1 % 4 * 16 / 16 = b1 := by omega
    rw [e1]
  | [b1, b2], h => by
    have hb1 : b1 < 256 := h b1 (by simp)
    have hb2 : b2 < 256 := h b2 (by simp)
    have h1 := hfg (b1 / 4) (by omega)
    have h2 := hfg (b1 % 4 * 16 + b2 / 16) (by omega)
    have h3 := hfg (b2 % 16 * 4) (by omega)
    have h3ne := hne (b2 % 16 * 4) (by omega)
    simp only [encGroups, decGroups, h1, h2, h3, if_neg h3ne, if_pos rfl, and_self, if_true]
    congr 1
    have e1 : b1 / 4 * 4 + (b1 % 4 * 16 + b2 / 16) / 16 = b1 := by omega
    have e2 : (b1 % 4 * 16 + b2 / 16) % 16 * 16 + b2 % 16 * 4 / 4 = b2 := by omega
    rw [e1, e2]
  | b1 :: b2 :: b3 :: rest, h => by
    have hb1 : b1 < 256 := h b1 (by simp)
    have hb2 : b2 < 256 := h b2 (by simp)
    have hb3 : b3 < 256 := h b3 (by simp)
    have h1 := hfg (b1 / 4) (by omega)
    have h2 := hfg (b1 % 4 * 16 + b2 / 16) (by omega)
    have h3 := hfg (b2 % 16 * 4 + b3 / 64) (by omega)
    have h4 := hfg (b3 % 64) (by omega)
    have h3ne := hne (b2 % 16 * 4 + b3 / 64) (by omega)
    have h4ne := hne (b3 % 64) (by omega)
    have ih := decGroups_encGroups f g hfg hne rest
      (fun x hx => h x (by simp; tauto))
    simp only [encGroups, decGroups, h1, h2, h3, h4, if_neg h3ne, if_neg h4ne, ih]
    congr 1
    have e1 : b1 / 4 * 4 + (b1 % 4 * 16 + b2 / 16) / 16 = b1 := by omega
    have e2 : (b1 % 4 * 16 + b2 / 16) % 16 * 16 + (b2 % 16 * 4 + b3 / 64) / 4 = b2 := by omega
    have e3 : (b2 % 16 * 4 + b3 / 64) % 4 * 64 + b3 % 64 = b3 := by omega
    rw [e1, e2, e3]

theorem encGroups_mem (g : Nat → Nat) :
    ∀ bs : List Nat, ByteOk bs → ∀ x ∈ encGroups g bs, (∃ v, v < 64 ∧ x = g v) ∨ x = 61
  | [], _ => by simp [encGroups]
  | [b1], h => by
    have hb1 : b1 < 256 := h b1 (by simp)
    intro x hx
    simp only [encGroups, List.mem_cons, List.not_mem_nil, or_false] at hx
    rcases hx with h' | h' | h' | h' <;> subst h'
    · exact Or.inl ⟨b1 / 4, by omega, rfl⟩
    · exact Or.inl ⟨b1 % 4 * 16, by omega, rfl⟩
    · exact Or.inr rfl
    · exact Or.inr rfl
  | [b1, b2], h => by
    have hb1 : b1 < 256 := h b1 (by simp)
    have hb2 : b2 < 256 := h b2 (by simp)
    intro x hx
    simp only [encGroups, List.mem_cons, List.not_mem_nil, or_false] at hx
    rcases hx with h' | h' | h' | h' <;> subst h'
    · exact Or.inl ⟨b1 / 4, by omega, rfl⟩
    · exact Or.inl ⟨b1 % 4 * 16 + b2 / 16, by omega, rfl⟩
    · exact Or.inl ⟨b2 % 16 * 4, by omega, rfl⟩
    · exact Or.inr rfl
  | b1 :: b2 :: b3 :: rest, h => by
    have hb1 : b1 < 256 := h b1 (by simp)
    have hb2 : b2 < 256 := h b2 (by simp)
    have hb3 : b3 < 256 := h b3 (by simp)
    have ih := encGroups_mem g rest (fun x hx => h x (by simp; tauto))
    intro x hx
    simp only [encGroups, List.mem_cons] at hx
    rcases hx with h' | h' | h' | h' | h'
    · exact Or.inl ⟨b1 / 4, by omega, h'⟩
    · exact Or.inl ⟨b1 % 4 * 16 + b2 / 16, by omega, h'⟩
    · exact Or.inl ⟨b2 % 16 * 4 + b3 / 64, by omega, h'⟩
    · exact Or.inl ⟨b3 % 64, by omega, h'⟩
    · exact ih x h'

theorem base64_decode_encode (f : Nat → Option Nat) (g : Nat → Nat)
    (hfg : ∀ v, v < 64 → f (g v) = some v)
    (hne : ∀ v, v < 64 → g v ≠ 61 ∧ g v ≠ 10 ∧ g v ≠ 13)
    (bs : List Nat) (hbs : ByteOk bs) :
    base64DecodeBytes f (base64EncodeBytes g bs) = some bs := by
  have hfilter : (encGroups g bs).filter (fun b => !(b == 10) && !(b == 13)) = encGroups g bs := by
    apply List.filter_eq_self.mpr
    intro x hx
    rcases encGroups_mem g bs hbs x hx with ⟨v, hv, rfl⟩ | rfl
    · have := hne v hv
      simp only [Bool.and_eq_true, Bool.not_eq_eq_eq_not, Bool.not_true, beq_eq_false_iff_ne]
      exact ⟨this.2.1, this.2.2⟩
    · simp
  unfold base64DecodeBytes base64EncodeBytes
  rw [hfilter]
  exact decGroups_encGroups f g hfg (fun v hv => (hne v hv).1) bs hbs

theorem b64Idx_agree :
    ∀ b v w, urlIdx b = some v → stdIdx b = some w → v = w := by
  intro b v w h1 h2
  simp only [urlIdx, stdIdx, b64Idx] at h1 h2
  split_ifs at h1 h2 <;> simp_all

theorem decGroups_agree (f g : Nat → Option Nat)
    (hag : ∀ b v w, f b = some v → g b = some w → v = w) :
    ∀ s k1 k2, decGroups f s = some k1 → decGroups g s = some k2 → k1 = k2
  | [], k1, k2, h1, h2 => by
    simp only [decGroups, Option.some.injEq] at h1 h2; rw [← h1, ← h2]
  | [a], k1, k2, h1, h2 => by simp [decGroups] at h1
  | [a, b], k1, k2, h1, h2 => by simp [decGroups] at h1
  | [a, b, c], k1, k2, h1, h2 => by simp [decGroups] at h1
  | a :: b :: c :: d :: rest, k1, k2, h1, h2 => by
    simp only [decGroups] at h1 h2
    cases hfa : f a with
    | none => rw [hfa] at h1; simp at h1
    | some va =>
    cases hfb : f b with
    | none => rw [hfa, hfb] at h1; simp at h1
    | some vb =>
    cases hga : g a with
    | none => rw [hga] at h2; simp at h2
    | some wa =>
    cases hgb : g b with
    | none => rw [hga, hgb] at h2; simp at h2
    | some wb =>
    rw [hfa, hfb] at h1
    rw [hga, hgb] at h2
    dsimp only at h1 h2
    have hva : va = wa := hag a va wa hfa hga
    have hvb : vb = wb := hag b vb wb hfb hgb
    subst hva; subst hvb
    by_cases hc : c = 61
    · rw [if_pos hc] at h1 h2
      by_cases hd : d = 61 ∧ rest = []
      · rw [if_pos hd] at h1 h2
        simp only [Option.some.injEq] at h1 h2; rw [← h1, ← h2]
      · rw [if_neg hd] at h1; simp at h1
    · rw [if_neg hc] at h1 h2
      cases hfc : f c with
      | none => rw [hfc] at h1; simp at h1
      | some vc =>
      cases hgc : g c with
      | none => rw [hgc] at h2; simp at h2
      | some wc =>
      rw [hfc] at h1; rw [hgc] at h2
      have hvc : vc = wc := hag c vc wc hfc hgc
      subst hvc
      dsimp only at h1 h2
      by_cases hd : d = 61
      · rw [if_pos hd] at h1 h2
        by_cases hrest : rest = []
        · rw [if_pos hrest] at h1 h2
          simp only [Option.some.injEq] at h1 h2; rw [← h1, ← h2]
        · rw [if_neg hrest] at h1; simp at h1
      · rw [if_neg hd] at h1 h2
        cases hfd : f d with
        | none => rw [hfd] at h1; simp at h1
        | some vd =>
        cases hgd : g d with
        | none => rw [hgd] at h2; simp at h2
        | some wd =>
        rw [hfd] at h1; rw [hgd] at h2
        have hvd : vd = wd := hag d vd wd hfd hgd
        subst hvd
        dsimp only at h1 h2
        cases hrf : decGroups f rest with
        | none => rw [hrf] at h1; simp at h1
        | some tf =>
        cases hrg : decGroups g rest with
        | none => rw [hrg] at h2; simp at h2
        | some tg =>
        rw [hrf] at h1; rw [hrg] at h2
        have : tf = tg := decGroups_agree f g hag rest tf tg hrf hrg
        subst this
        dsimp only at h1 h2
        simp only [Option.some.injEq] at h1 h2; rw [← h1, ← h2]

theorem base64_decode_agree (s : GoStr) (k1 k2 : GoStr)
    (h1 : base64DecodeBytes urlIdx s = some k1)
    (h2 : base64DecodeBytes stdIdx s = some k2) : k1 = k2 :=
  decGroups_agree urlIdx stdIdx b64Idx_agree _ k1 k2 h1 h2

/-! ### Claim C8: ValidateKey -/

/-- C8: `ValidateKey(s)` returns true iff `s` decodes, under URL-safe
base64 or standard base64, to exactly 32 bytes; moreover the
(URL-safe or standard) base64 encoding of any 32-byte value validates
true, a 24-byte key's encoding validates false, and the empty string
validates false (a non-base64 string is covered by the first part,
since it decodes under neither alphabet). -/
theorem validateKey_spec :
    (∀ s : GoStr, ValidateKey s = true ↔
      ∃ k, (base64DecodeBytes urlIdx s = some k ∨ base64DecodeBytes stdIdx s = some k) ∧
        k.length = 32)
    ∧ (∀ k : GoStr, k.length = 32 → ByteOk k →
        ValidateKey (base64EncodeBytes urlAlpha k) = true ∧
        ValidateKey (base64EncodeBytes stdAlpha k) = true)
    ∧ (∀ k : GoStr, k.length = 24 → ByteOk k →
        ValidateKey (base64EncodeBytes urlAlpha k) = false)
    ∧ ValidateKey [] = false := by
  have hiff : ∀ s : GoStr, ValidateKey s = true ↔
      ∃ k, (base64DecodeBytes urlIdx s = some k ∨ base64DecodeBytes stdIdx s = some k) ∧
        k.length = 32 := by
    intro s
    unfold ValidateKey NewFernetOk
    constructor
    · intro h
      cases hurl : base64DecodeBytes urlIdx s with
      | some k =>
        rw [hurl] at h
        exact ⟨k, Or.inl rfl, by simpa using h⟩
      | none =>
        rw [hurl] at h
        cases hstd : base64DecodeBytes stdIdx s with
        | some k =>
          rw [hstd] at h
          exact ⟨k, Or.inr rfl, by simpa using h⟩
        | none => rw [hstd] at h; simp at h
    · rintro ⟨k, hk, hlen⟩
      cases hurl : base64DecodeBytes urlIdx s with
      | some k2 =>
        rcases hk with hk | hk
        · rw [hurl] at hk
          simp only [Option.some.injEq] at hk
          subst hk; simp [hlen]
        · have : k2 = k := base64_decode_agree s k2 k hurl hk
          subst this; simp [hlen]
      | none =>
        rcases hk with hk | hk
        · rw [hurl] at hk; exact absurd hk (by simp)
        · rw [hk]; simp [hlen]
  refine ⟨hiff, ?_, ?_, by decide⟩
  · intro k hlen hbytes
    have hurl := base64_decode_encode urlIdx urlAlpha urlIdx_urlAlpha urlAlpha_notPad k hbytes
    have hstd := base64_decode_encode stdIdx stdAlpha stdIdx_stdAlpha stdAlpha_notPad k hbytes
    constructor
    · exact (hiff _).mpr ⟨k, Or.inl hurl, hlen⟩
    · exact (hiff _).mpr ⟨k, Or.inr hstd, hlen⟩
  · intro k hlen hbytes
    have hurl := base64_decode_encode urlIdx urlAlpha urlIdx_urlAlpha urlAlpha_notPad k hbytes
    rw [Bool.eq_false_iff]
    intro hcon
    rcases (hiff _).mp hcon with ⟨k2, hk2, hlen2⟩
    rcases hk2 with hk2 | hk2
    · rw [hurl] at hk2
      simp only [Option.some.injEq] at hk2
      subst hk2; omega
    · have : k = k2 := base64_decode_agree _ k k2 hurl hk2
      subst this; omega

/-- Witness for C8 at concrete inputs. -/
theorem validateKey_spec_witness :
    ValidateKey (base64EncodeBytes urlAlpha (List.range 32)) = true ∧
    ValidateKey (base64EncodeBytes urlAlpha (List.range 24)) = false :=
  ⟨(validateKey_spec.2.1 (List.range 32) (by decide) (by decide)).1,
   validateKey_spec.2.2.1 (List.range 24) (by decide) (by decide)⟩

/-! ### Fernet codec (`internal/core/services/fernet.go`)

The AES-128 block cipher (keyed by the 16-byte encryption sub-key)
and HMAC-SHA-256 (keyed by the 16-byte signing sub-key) come from the
Go standard library; a `Fernet` value is modelled by the keyed
functions themselves.  CBC chaining, PKCS#7 padding, the token layout
`version || timestamp_be64 || iv || ciphertext || hmac32` and the
base64 coding are embedded concretely from the source. -/

/-- Model of one `services.Fernet` instance: the AES block
encryption/decryption functions under its 16-byte encryption sub-key,
and the HMAC-SHA-256 function under its 16-byte signing sub-key. -/
structure FernetPrims where
  encBlock : List Nat → List Nat
  decBlock : List Nat → List Nat
  hmac : List Nat → List Nat

/-- Well-formedness of the modelled primitives: exactly the contract
Go's `crypto/aes` and `crypto/hmac` provide. -/
structure PrimsOk (F : FernetPrims) : Prop where
  decEnc : ∀ b : List Nat, b.length = 16 → F.decBlock (F.encBlock b) = b
  encLen : ∀ b : List Nat, b.length = 16 → (F.encBlock b).length = 16
  encBytes : ∀ b : List Nat, b.length = 16 → ByteOk b → ByteOk (F.encBlock b)
  hmacLen : ∀ d : List Nat, (F.hmac d).length = 32
  hmacBytes : ∀ d : List Nat, ByteOk (F.hmac d)

/-- Byte-wise XOR (`xor` on byte values). -/
def xorBytes (a b : List Nat) : List Nat := List.zipWith Nat.xor a b

/-- Fuel-driven splitter into 16-byte blocks; structural recursion on
the fuel keeps it kernel-computable. -/
def chunksGo : Nat → List Nat → List (List Nat)
  | 0, _ => []
  | fuel + 1, l => if l = [] then [] else l.take 16 :: chunksGo fuel (l.drop 16)

/-- Split into 16-byte blocks (AES block size). -/
def chunks16 (l : List Nat) : List (List Nat) := chunksGo l.length l

theorem chunksGo_nil : ∀ fuel, chunksGo fuel [] = []
  | 0 => rfl
  | _ + 1 => by rw [chunksGo, if_pos rfl]

theorem chunksGo_congr : ∀ f1 f2 : Nat, ∀ l : List Nat, l.length ≤ f1 → l.length ≤ f2 →
    chunksGo f1 l = chunksGo f2 l
  | 0, f2, l, h1, _ => by
    have : l = [] := by
      cases l with
      | nil => rfl
      | cons a t => simp at h1
    rw [this, chunksGo_nil, chunksGo_nil]
  | f1 + 1, f2, l, h1, h2 => by
    by_cases hl : l = []
    · rw [hl, chunksGo_nil, chunksGo_nil]
    · have hlen : 1 ≤ l.length := by
        cases l with
        | nil => exact absurd rfl hl
        | cons a t => simp
      cases f2 with
      | zero => omega
      | succ f2 =>
        rw [chunksGo, chunksGo, if_neg hl, if_neg hl]
        have hd : (l.drop 16).length ≤ f1 := by simp; omega
        have hd2 : (l.drop 16).length ≤ f2 := by simp; omega
        rw [chunksGo_congr f1 f2 (l.drop 16) hd hd2]

theorem chunks16_eq (l : List Nat) :
    chunks16 l = if l = [] then [] else l.take 16 :: chunks16 (l.drop 16) := by
  by_cases hl : l = []
  · rw [if_pos hl, hl, chunks16, chunksGo_nil]
  · rw [if_neg hl, chunks16, chunks16]
    have hlen : 1 ≤ l.length := by
      cases l with
      | nil => exact absurd rfl hl
      | cons a t => simp
    cases hn : l.length with
    | zero => omega
    | succ n =>
      rw [chunksGo, if_neg hl]
      have hd : (l.drop 16).length ≤ n := by simp; omega
      rw [chunksGo_congr n (l.drop 16).length (l.drop 16) hd (le_refl _)]

/-- Semantics of Go's `cipher.NewCBCEncrypter(...).CryptBlocks`:
each block is XORed with the previous ciphertext block (initially the
IV) and passed through the block cipher. -/
def cbcEnc (E : List Nat → List Nat) (prev : List Nat) : List (List Nat) → List (List Nat)
  | [] => []
  | p :: rest =>
      let c := E (xorBytes p prev)
      c :: cbcEnc E c rest

/-- Semantics of Go's `cipher.NewCBCDecrypter(...).CryptBlocks`. -/
def cbcDec (D : List Nat → List Nat) (prev : List Nat) : List (List Nat) → List (List Nat)
  | [] => []
  | c :: rest => xorBytes (D c) prev :: cbcDec D c rest

/-- Model of `pkcs7Pad` from fernet.go (block size 16). -/
def pkcs7Pad (data : GoStr) : GoStr :=
  data ++ List.replicate (16 - data.length % 16) (16 - data.length % 16)

/-- Model of `pkcs7Unpad` from fernet.go.  Note the faithful check
`padding > len(data) || padding > aes.BlockSize`: a final byte of 0
passes it and the verification loop is empty, so zero "padding" is
accepted and removes nothing. -/
def pkcs7Unpad (data : GoStr) : Option GoStr :=
  match data.getLast? with
  | none => none
  | some padding =>
    if padding > data.length ∨ padding > 16 then none
    else if (data.drop (data.length - padding)).all (fun x => x == padding) then
      some (data.take (data.length - padding))
    else none

/-- Model of `putUint64BE`: big-endian 8-byte encoding of the token
timestamp. -/
def putUint64BE (v : Nat) : GoStr :=
  [v / 2 ^ 56 % 256, v / 2 ^ 48 % 256, v / 2 ^ 40 % 256, v / 2 ^ 32 % 256,
   v / 2 ^ 24 % 256, v / 2 ^ 16 % 256, v / 2 ^ 8 % 256, v % 256]

/-- Model of `Fernet.Encrypt`.  The fresh random IV and the current
Unix timestamp are external inputs of the Go function (drawn from
`crypto/rand` and `time.Now`), so they are explicit arguments here.
Returns the base64 token as a byte string. -/
def fernetEncrypt (F : FernetPrims) (iv : GoStr) (ts : Nat) (plaintext : GoStr) : GoStr :=
  let padded := pkcs7Pad plaintext
  let ciphertext := (cbcEnc F.encBlock iv (chunks16 padded)).flatten
  let token := 128 :: putUint64BE ts ++ iv ++ ciphertext
  let final := token ++ F.hmac token
  base64EncodeBytes urlAlpha final

/-- Decode step of `Fernet.Decrypt`: URL-safe base64 first, standard
base64 if that fails. -/
def fernetB64 (token : GoStr) : Option GoStr :=
  match base64DecodeBytes urlIdx token with
  | some d => some d
  | none => base64DecodeBytes stdIdx token

/-- Model of `Fernet.Decrypt`: base64 decode (URL-safe, then
standard), minimum length 73, version byte 0x80, HMAC over all but
the last 32 bytes compared with the last 32 bytes, ciphertext length
a multiple of 16, CBC decrypt, PKCS#7 unpad. -/
def fernetDecrypt (F : FernetPrims) (token : GoStr) : Option GoStr :=
  match fernetB64 token with
  | none => none
  | some data =>
    if data.length < 73 then none
    else if data.headI ≠ 128 then none
    else
      let tokenData := data.take (data.length - 32)
      let providedHMAC := data.drop (data.length - 32)
      if F.hmac tokenData ≠ providedHMAC then none
      else
        let iv := (tokenData.drop 9).take 16
        let ciphertext := tokenData.drop 25
        if ciphertext.length % 16 ≠ 0 then none
        else pkcs7Unpad (cbcDec F.decBlock iv (chunks16 ciphertext)).flatten

/-! ### Codec lemmas -/

theorem xorBytes_length (a b : List Nat) : (xorBytes a b).length = min a.length b.length := by
  simp [xorBytes]

theorem xorBytes_cancel : ∀ p q : List Nat, p.length = q.length →
    xorBytes (xorBytes p q) q = p
  | [], [], _ => rfl
  | p :: ps, q :: qs, h => by
    simp only [xorBytes, List.zipWith_cons_cons, List.cons.injEq]
    refine ⟨Nat.xor_cancel_right q p, ?_⟩
    exact xorBytes_cancel ps qs (by simpa using h)

theorem xorBytes_bytes : ∀ a b : List Nat, ByteOk a → ByteOk b → ByteOk (xorBytes a b)
  | [], _, _, _ => by intro x hx; simp [xorBytes] at hx
  | _ :: _, [], _, _ => by intro x hx; simp [xorBytes] at hx
  | a :: as, b :: bs, ha, hb => by
    intro x hx
    simp only [xorBytes, List.zipWith_cons_cons, List.mem_cons] at hx
    rcases hx with rfl | hx
    · have h1 : a < 256 := ha a (by simp)
      have h2 : b < 256 := hb b (by simp)
      have := Nat.xor_lt_two_pow (n := 8) h1 h2
      simpa using this
    · exact xorBytes_bytes as bs (fun y hy => ha y (by simp [hy]))
        (fun y hy => hb y (by simp [hy])) x hx

theorem chunks16_flatten (l : List Nat) : (chunks16 l).flatten = l := by
  have H : ∀ n, ∀ l : List Nat, l.length = n → (chunks16 l).flatten = l := by
    intro n
    induction n using Nat.strong_induction_on with
    | _ n ih =>
      intro l hn
      subst hn
      rw [chunks16_eq]
      split
      · rename_i h; simp [h]
      · rename_i h
        have hlt : (l.drop 16).length < l.length := by
          cases l with
          | nil => exact absurd rfl h
          | cons a t => simp; omega
        rw [List.flatten_cons, ih _ hlt (l.drop 16) rfl, List.take_append_drop]
  exact H _ l rfl

theorem chunks16_blockLen (l : List Nat) :
    l.length % 16 = 0 → ∀ c ∈ chunks16 l, c.length = 16 := by
  have H : ∀ n, ∀ l : List Nat, l.length = n →
      l.length % 16 = 0 → ∀ c ∈ chunks16 l, c.length = 16 := by
    intro n
    induction n using Nat.strong_induction_on with
    | _ n ih =>
      intro l hn hmod
      subst hn
      rw [chunks16_eq]
      split
      · simp
      · rename_i h
        have hne : 1 ≤ l.length := by
          cases l with
          | nil => exact absurd rfl h
          | cons a t => simp
        have hlen : 16 ≤ l.length := by omega
        have hlt : (l.drop 16).length < l.length := by simp; omega
        intro c hc
        rcases List.mem_cons.mp hc with rfl | hc
        · simp [hlen]
        · exact ih _ hlt (l.drop 16) rfl (by simp; omega) c hc
  exact H _ l rfl

theorem chunks16_flatten_blocks : ∀ bls : List (List Nat), (∀ b ∈ bls, b.length = 16) →
    chunks16 bls.flatten = bls
  | [], _ => by rw [chunks16_eq]; simp
  | b :: rest, h => by
    have hb : b.length = 16 := h b (by simp)
    have hne : b ++ rest.flatten ≠ [] := by
      intro hcon
      have : b = [] := by simpa using (List.append_eq_nil.mp hcon).1
      rw [this] at hb; simp at hb
    rw [List.flatten_cons, chunks16_eq, if_neg hne]
    have ht : (b ++ rest.flatten).take 16 = b := by
      rw [← hb]; exact List.take_left _ _
    have hd : (b ++ rest.flatten).drop 16 = rest.flatten := by
      rw [← hb]; exact List.drop_left _ _
    rw [ht, hd, chunks16_flatten_blocks rest (fun x hx => h x (by simp [hx]))]

theorem cbcEnc_blockLen (F : FernetPrims) (hF : PrimsOk F) :
    ∀ ps : List (List Nat), ∀ prev : List Nat, prev.length = 16 →
      (∀ p ∈ ps, p.length = 16) → ∀ c ∈ cbcEnc F.encBlock prev ps, c.length = 16
  | [], _, _, _ => by simp [cbcEnc]
  | p :: rest, prev, hprev, hps => by
    intro c hc
    have hp : p.length = 16 := hps p (by simp)
    have hxlen : (xorBytes p prev).length = 16 := by
      rw [xorBytes_length, hp, hprev]; simp
    have hclen : (F.encBlock (xorBytes p prev)).length = 16 := hF.encLen _ hxlen
    simp only [cbcEnc, List.mem_cons] at hc
    rcases hc with rfl | hc
    · exact hclen
    · exact cbcEnc_blockLen F hF rest _ hclen (fun x hx => hps x (by simp [hx])) c hc

theorem cbcEnc_bytes (F : FernetPrims) (hF : PrimsOk F) :
    ∀ ps : List (List Nat), ∀ prev : List Nat, prev.length = 16 → ByteOk prev →
      (∀ p ∈ ps, p.length = 16 ∧ ByteOk p) → ∀ c ∈ cbcEnc F.encBlock prev ps, ByteOk c
  | [], _, _, _, _ => by simp [cbcEnc]
  | p :: rest, prev, hprev, hprevB, hps => by
    intro c hc
    have hp := hps p (by simp)
    have hxlen : (xorBytes p prev).length = 16 := by
      rw [xorBytes_length, hp.1, hprev]; simp
    have hxb : ByteOk (xorBytes p prev) := xorBytes_bytes _ _ hp.2 hprevB
    have hcB : ByteOk (F.encBlock (xorBytes p prev)) := hF.encBytes _ hxlen hxb
    have hclen : (F.encBlock (xorBytes p prev)).length = 16 := hF.encLen _ hxlen
    simp only [cbcEnc, List.mem_cons] at hc
    rcases hc with rfl | hc
    · exact hcB
    · exact cbcEnc_bytes F hF rest _ hclen hcB (fun x hx => hps x (by simp [hx])) c hc

theorem cbcDec_cbcEnc (F : FernetPrims) (hF : PrimsOk F) :
    ∀ ps : List (List Nat), ∀ prev : List Nat, prev.length = 16 →
      (∀ p ∈ ps, p.length = 16) →
      cbcDec F.decBlock prev (cbcEnc F.encBlock prev ps) = ps
  | [], _, _, _ => rfl
  | p :: rest, prev, hprev, hps => by
    have hp : p.length = 16 := hps p (by simp)
    have hxlen : (xorBytes p prev).length = 16 := by
      rw [xorBytes_length, hp, hprev]; simp
    have hclen : (F.encBlock (xorBytes p prev)).length = 16 := hF.encLen _ hxlen
    simp only [cbcEnc, cbcDec, List.cons.injEq]
    constructor
    · rw [hF.decEnc _ hxlen]
      exact xorBytes_cancel p prev (by rw [hp, hprev])
    · exact cbcDec_cbcEnc F hF rest _ hclen (fun x hx => hps x (by simp [hx]))

theorem pkcs7Pad_mod (pt : GoStr) : (pkcs7Pad pt).length % 16 = 0 := by
  simp only [pkcs7Pad, List.length_append, List.length_replicate]
  omega

theorem pkcs7Pad_pos (pt : GoStr) : 16 ≤ (pkcs7Pad pt).length := by
  simp only [pkcs7Pad, List.length_append, List.length_replicate]
  omega

theorem pkcs7Pad_bytes (pt : GoStr) (h : ByteOk pt) : ByteOk (pkcs7Pad pt) := by
  intro x hx
  simp only [pkcs7Pad, List.mem_append, List.mem_replicate] at hx
  rcases hx with hx | hx
  · exact h x hx
  · omega

theorem getLast?_replicate_pos (n x : Nat) (h : 0 < n) :
    (List.replicate n x).getLast? = some x := by
  cases n with
  | zero => omega
  | succ m => rw [List.replicate_succ', List.getLast?_concat]

theorem pkcs7Unpad_pkcs7Pad (pt : GoStr) : pkcs7Unpad (pkcs7Pad pt) = some pt := by
  set p := 16 - pt.length % 16 with hp
  have hp1 : 1 ≤ p := by omega
  have hp16 : p ≤ 16 := by omega
  have hlast : (pkcs7Pad pt).getLast? = some p := by
    rw [pkcs7Pad, List.getLast?_append_of_ne_nil _ (by simp; omega),
      getLast?_replicate_pos _ _ (by omega)]
  have hlen : (pkcs7Pad pt).length = pt.length + p := by
    simp [pkcs7Pad]
  rw [pkcs7Unpad, hlast]
  have hdrop : (pkcs7Pad pt).drop ((pkcs7Pad pt).length - p) = List.replicate p p := by
    rw [hlen, Nat.add_sub_cancel, pkcs7Pad]
    exact List.drop_left _ _
  have htake : (pkcs7Pad pt).take ((pkcs7Pad pt).length - p) = pt := by
    rw [hlen, Nat.add_sub_cancel, pkcs7Pad]
    exact List.take_left _ _
  dsimp only
  rw [if_neg (by omega), hdrop, htake, if_pos (by simp [List.all_eq_true, List.mem_replicate])]

theorem flatten_len16 : ∀ bls : List (List Nat), (∀ b ∈ bls, b.length = 16) →
    bls.flatten.length = 16 * bls.length
  | [], _ => by simp
  | b :: rest, h => by
    rw [List.flatten_cons, List.length_append, h b (by simp),
      flatten_len16 rest (fun x hx => h x (by simp [hx]))]
    simp
    ring

theorem cbcEnc_length (E : List Nat → List Nat) :
    ∀ ps : List (List Nat), ∀ prev, (cbcEnc E prev ps).length = ps.length
  | [], _ => rfl
  | p :: rest, prev => by
    simp only [cbcEnc, List.length_cons]
    rw [cbcEnc_length E rest]

theorem chunks16_ne_nil (l : List Nat) (h : l ≠ []) : chunks16 l ≠ [] := by
  rw [chunks16_eq, if_neg h]
  simp

theorem flatten_bytes (bls : List (List Nat)) (h : ∀ b ∈ bls, ByteOk b) :
    ByteOk bls.flatten := by
  intro x hx
  rw [List.mem_flatten] at hx
  obtain ⟨b, hb, hxb⟩ := hx
  exact h b hb x hxb

theorem putUint64BE_bytes (ts : Nat) : ByteOk (putUint64BE ts) := by
  intro x hx
  simp only [putUint64BE, List.mem_cons, List.not_mem_nil, or_false] at hx
  rcases hx with rfl | rfl | rfl | rfl | rfl | rfl | rfl | rfl <;> omega

theorem putUint64BE_length (ts : Nat) : (putUint64BE ts).length = 8 := rfl

theorem fernetDecrypt_fernetEncrypt (F : FernetPrims) (hF : PrimsOk F) (iv : GoStr)
    (ts : Nat) (pt : GoStr) (hiv : iv.length = 16) (hivB : ByteOk iv) (hptB : ByteOk pt) :
    fernetDecrypt F (fernetEncrypt F iv ts pt) = some pt := by
  have hmod : (pkcs7Pad pt).length % 16 = 0 := pkcs7Pad_mod pt
  have hblocks : ∀ b ∈ chunks16 (pkcs7Pad pt), b.length = 16 :=
    chunks16_blockLen _ hmod
  have hblocksB : ∀ b ∈ chunks16 (pkcs7Pad pt), ByteOk b := by
    intro b hb x hx
    have : x ∈ (chunks16 (pkcs7Pad pt)).flatten := List.mem_flatten.mpr ⟨b, hb, hx⟩
    rw [chunks16_flatten] at this
    exact pkcs7Pad_bytes pt hptB x this
  set cblocks := cbcEnc F.encBlock iv (chunks16 (pkcs7Pad pt)) with hcb
  have hcbLen : ∀ c ∈ cblocks, c.length = 16 :=
    cbcEnc_blockLen F hF _ iv hiv hblocks
  have hcbB : ∀ c ∈ cblocks, ByteOk c :=
    cbcEnc_bytes F hF _ iv hiv hivB (fun p hp => ⟨hblocks p hp, hblocksB p hp⟩)
  set ct := cblocks.flatten with hctdef
  have hctLen : ct.length = 16 * cblocks.length := flatten_len16 _ hcbLen
  have hpadne : pkcs7Pad pt ≠ [] := by
    intro h2
    have hge := pkcs7Pad_pos pt
    rw [h2] at hge
    simp at hge
  have hcbne : cblocks ≠ [] := by
    intro hcon
    have h1 := chunks16_ne_nil _ hpadne
    have hlen : cblocks.length = (chunks16 (pkcs7Pad pt)).length := by
      rw [hcb]; exact cbcEnc_length _ _ _
    rw [hcon] at hlen
    exact h1 (List.length_eq_zero.mp hlen.symm)
  have hct16 : 16 ≤ ct.length := by
    rw [hctLen]
    cases hc : cblocks with
    | nil => exact absurd hc hcbne
    | cons a t => simp
  have hctMod : ct.length % 16 = 0 := by omega
  have hctB : ByteOk ct := flatten_bytes _ hcbB
  set token := 128 :: putUint64BE ts ++ iv ++ ct with htok
  have htokLen : token.length = 25 + ct.length := by
    rw [htok]
    simp [putUint64BE, hiv]
    omega
  have htokB : ByteOk token := by
    intro x hx
    rw [htok] at hx
    simp only [List.mem_cons, List.mem_append] at hx
    rcases hx with ((rfl | hx) | hx) | hx
    · omega
    · exact putUint64BE_bytes ts x hx
    · exact hivB x hx
    · exact hctB x hx
  set final := token ++ F.hmac token with hfin
  have hfinB : ByteOk final := by
    intro x hx
    rw [hfin] at hx
    rcases List.mem_append.mp hx with hx | hx
    · exact htokB x hx
    · exact hF.hmacBytes token x hx
  have hfinLen : final.length = token.length + 32 := by
    rw [hfin]; simp [hF.hmacLen]
  have hdec : base64DecodeBytes urlIdx (base64EncodeBytes urlAlpha final) = some final :=
    base64_decode_encode urlIdx urlAlpha urlIdx_urlAlpha urlAlpha_notPad final hfinB
  rw [fernetEncrypt, fernetDecrypt, fernetB64]
  dsimp only
  rw [← hcb, ← hctdef, ← htok, ← hfin, hdec]
  dsimp only
  rw [if_neg (by omega)]
  have hhead : final.headI = 128 := by rw [hfin, htok]; rfl
  rw [if_neg (by rw [hhead]; omega)]
  have htake : final.take (final.length - 32) = token := by
    rw [hfin]
    have : (token ++ F.hmac token).length - 32 = token.length := by
      rw [List.length_append, hF.hmacLen]; omega
    rw [this, List.take_left]
  have hdrop : final.drop (final.length - 32) = F.hmac token := by
    rw [hfin]
    have : (token ++ F.hmac token).length - 32 = token.length := by
      rw [List.length_append, hF.hmacLen]; omega
    rw [this, List.drop_left]
  rw [htake, hdrop, if_neg (by simp)]
  have hdrop9 : token.drop 9 = iv ++ ct := by
    rw [htok]
    show (putUint64BE ts ++ iv ++ ct).drop 8 = iv ++ ct
    rw [List.append_assoc]
    exact List.drop_left' (putUint64BE_length ts)
  have hiv' : (token.drop 9).take 16 = iv := by
    rw [hdrop9]
    exact List.take_left' hiv
  have hct' : token.drop 25 = ct := by
    rw [htok]
    show (putUint64BE ts ++ iv ++ ct).drop 24 = ct
    exact List.drop_left' (by simp [putUint64BE, hiv])
  rw [hiv', hct', if_neg (by omega)]
  rw [hctdef, chunks16_flatten_blocks cblocks hcbLen, hcb,
    cbcDec_cbcEnc F hF _ iv hiv hblocks, chunks16_flatten]
  exact pkcs7Unpad_pkcs7Pad pt

/-! ### Claim C1: codec round trip -/

/-- C1: for every 32-byte DomainKey — modelled by its well-formed AES /
HMAC primitives `F` — and every byte string `p` (including the empty
string), `Decrypt(k, Encrypt(k, p))` succeeds and returns exactly `p`,
for any fresh 16-byte IV and any timestamp. -/
theorem fernet_round_trip (F : FernetPrims) (hF : PrimsOk F) (iv : GoStr) (ts : Nat)
    (p : GoStr) (hiv : iv.length = 16) (hivB : ByteOk iv) (hpB : ByteOk p) :
    fernetDecrypt F (fernetEncrypt F iv ts p) = some p :=
  fernetDecrypt_fernetEncrypt F hF iv ts p hiv hivB hpB

/-- Concrete primitives for witnesses and counterexamples: the identity
block cipher with an all-zero MAC.  They satisfy the block-cipher and
MAC contract `PrimsOk`. -/
def idPrims : FernetPrims :=
  ⟨id, id, fun _ => List.replicate 32 0⟩

/-- Witness for C1 at a concrete key instance, IV, timestamp and
plaintext (the two-byte string `"hi"`). -/
theorem fernet_round_trip_witness :
    fernetDecrypt idPrims (fernetEncrypt idPrims (List.replicate 16 0) 1700000000 [104, 105]) =
      some [104, 105] :=
  fernet_round_trip idPrims
    ⟨fun _ _ => rfl, fun _ h => h, fun _ _ hb => hb,
     fun _ => by simp [idPrims], fun _ x hx => by simp [idPrims] at hx; omega⟩
    (List.replicate 16 0) 1700000000 [104, 105] (by simp) (by decide) (by decide)

/-! ### Claim C2: Decrypt failure conditions -/

/-- Modelled from the spec claim's wording for comparison: PKCS#7
padding is structurally valid when the final byte `p` satisfies
`1 ≤ p ≤ 16`, `p` does not exceed the data length, and the last `p`
bytes all equal `p` (so a final byte of 0 is structurally invalid). -/
def specPkcs7Valid (data : GoStr) : Bool :=
  match data.getLast? with
  | none => false
  | some padding =>
    decide (1 ≤ padding) && decide (padding ≤ 16) && decide (padding ≤ data.length) &&
      (data.drop (data.length - padding)).all (fun x => x == padding)

/-- Token whose (well-authenticated, well-formed) ciphertext decrypts,
under the identity-block-cipher instance, to sixteen 0x00 bytes — a
byte string whose final "padding byte" is 0. -/
def padZeroToken : GoStr := base64EncodeBytes urlAlpha (128 :: List.replicate 72 0)

/-- Counterexample to C2 as stated: a final padding byte of 0 is not
rejected.  `pkcs7Unpad` accepts the all-zero block (removing nothing),
and a full `Decrypt` of a token with valid version, length, HMAC and
block alignment whose CBC plaintext ends in byte 0 succeeds instead
of returning an error, although that padding is structurally invalid
in the claim's sense. -/
theorem fernetDecrypt_pad_zero_counterexample :
    specPkcs7Valid (List.replicate 16 0) = false ∧
    pkcs7Unpad (List.replicate 16 0) = some (List.replicate 16 0) ∧
    fernetDecrypt idPrims padZeroToken = some (List.replicate 16 0) := by
  refine ⟨by decide, by decide, by decide⟩

/-- C2 (amended): `Decrypt` returns an error if and only if the base64
decode fails, the decoded length is below 73 bytes, the version byte
differs from 0x80, the HMAC-SHA-256 over the first len−32 bytes does
not match the last 32 bytes, the ciphertext length is not a multiple
of 16, or the PKCS#7 unpadding check of the implementation fails —
that check rejects a final byte above 16 or above the data length and
mismatching claimed pad bytes, but accepts a final byte of 0 (removing
nothing). -/
theorem fernetDecrypt_error_iff (F : FernetPrims) (t : GoStr) :
    fernetDecrypt F t = none ↔
      fernetB64 t = none ∨
      ∃ d, fernetB64 t = some d ∧
        (d.length < 73 ∨ d.headI ≠ 128 ∨
         F.hmac (d.take (d.length - 32)) ≠ d.drop (d.length - 32) ∨
         ((d.take (d.length - 32)).drop 25).length % 16 ≠ 0 ∨
         pkcs7Unpad (cbcDec F.decBlock (((d.take (d.length - 32)).drop 9).take 16)
           (chunks16 ((d.take (d.length - 32)).drop 25))).flatten = none) := by
  rw [fernetDecrypt]
  cases hb : fernetB64 t with
  | none => simp
  | some d =>
    simp only [Option.some.injEq, false_or, reduceCtorEq]
    constructor
    · intro h
      refine ⟨d, rfl, ?_⟩
      by_cases h1 : d.length < 73
      · exact Or.inl h1
      rw [if_neg h1] at h
      by_cases h2 : d.headI ≠ 128
      · exact Or.inr (Or.inl h2)
      rw [if_neg h2] at h
      by_cases h3 : F.hmac (d.take (d.length - 32)) ≠ d.drop (d.length - 32)
      · exact Or.inr (Or.inr (Or.inl h3))
      rw [if_neg h3] at h
      by_cases h4 : ((d.take (d.length - 32)).drop 25).length % 16 ≠ 0
      · exact Or.inr (Or.inr (Or.inr (Or.inl h4)))
      rw [if_neg h4] at h
      exact Or.inr (Or.inr (Or.inr (Or.inr h)))
    · rintro ⟨d2, hd2, hcond⟩
      subst hd2
      rcases hcond with h1 | h2 | h3 | h4 | h5
      · rw [if_pos h1]
      · by_cases h1 : d.length < 73
        · rw [if_pos h1]
        · rw [if_neg h1, if_pos h2]
      · by_cases h1 : d.length < 73
        · rw [if_pos h1]
        · rw [if_neg h1]
          by_cases h2 : d.headI ≠ 128
          · rw [if_pos h2]
          · rw [if_neg h2, if_pos h3]
      · by_cases h1 : d.length < 73
        · rw [if_pos h1]
        · rw [if_neg h1]
          by_cases h2 : d.headI ≠ 128
          · rw [if_pos h2]
          · rw [if_neg h2]
            by_cases h3 : F.hmac (d.take (d.length - 32)) ≠ d.drop (d.length - 32)
            · rw [if_pos h3]
            · rw [if_neg h3, if_pos h4]
      · by_cases h1 : d.length < 73
        · rw [if_pos h1]
        · rw [if_neg h1]
          by_cases h2 : d.headI ≠ 128
          · rw [if_pos h2]
          · rw [if_neg h2]
            by_cases h3 : F.hmac (d.take (d.length - 32)) ≠ d.drop (d.length - 32)
            · rw [if_pos h3]
            · rw [if_neg h3]
              by_cases h4 : ((d.take (d.length - 32)).drop 25).length % 16 ≠ 0
              · rw [if_pos h4]
              · rw [if_neg h4]
                exact h5

/-! ### Secret store (`internal/secrets/store.go`)

`New` loads or creates a 16-byte salt, derives a 32-byte key via
Argon2id, and — when the credentials file exists — decrypts it with
AES-256-GCM (nonce prefixed) and JSON-decodes the mapping; any
decrypt or JSON failure is reported as `ErrInvalidPassword`.
Argon2id, AES-GCM and `encoding/json` are Go-library externals,
modelled as abstract functions in `VaultEnv`; the file-system is
modelled explicitly as the two files the store touches. -/

/-- In-memory Go `map[string]string`, as an association list with
Go-map update semantics. -/
def mapSet : List (GoStr × GoStr) → GoStr → GoStr → List (GoStr × GoStr)
  | [], k, v => [(k, v)]
  | (k2, v2) :: rest, k, v =>
      if k2 = k then (k, v) :: rest else (k2, v2) :: mapSet rest k v

/-- Membership test (`_, ok := m[key]`). -/
def mapHas (m : List (GoStr × GoStr)) (k : GoStr) : Bool :=
  m.any (fun p => p.1 == k)

/-- Deletion (`delete(m, key)`). -/
def mapDel (m : List (GoStr × GoStr)) (k : GoStr) : List (GoStr × GoStr) :=
  m.filter (fun p => !(p.1 == k))

/-- External primitives used by the store: the Argon2id KDF, AES-GCM
seal/open (nonce handled by the caller model), and JSON
encoding/decoding of the mapping. -/
structure VaultEnv where
  kdf : GoStr → GoStr → GoStr
  gseal : GoStr → GoStr → GoStr → GoStr
  opn : GoStr → GoStr → Option GoStr
  jsonEnc : List (GoStr × GoStr) → GoStr
  jsonDec : GoStr → Option (List (GoStr × GoStr))

/-- Contract of the external primitives: Argon2id always yields 32
bytes and is collision-free across passwords (ideal KDF), AES-256-GCM
decrypts its own output under the same key and authenticates — a
different 32-byte key never opens a sealed blob (ideal authenticated
encryption) — and JSON decoding inverts encoding. -/
structure VaultEnvOk (V : VaultEnv) : Prop where
  kdfLen : ∀ pw salt, (V.kdf pw salt).length = 32
  kdfInj : ∀ pw pw2 salt, pw ≠ pw2 → V.kdf pw salt ≠ V.kdf pw2 salt
  opnSeal : ∀ key nonce pt, key.length = 32 → V.opn key (V.gseal key nonce pt) = some pt
  opnAuth : ∀ key key2 nonce pt, key.length = 32 → key2.length = 32 → key2 ≠ key →
    V.opn key2 (V.gseal key nonce pt) = none
  jsonDecEnc : ∀ m, V.jsonDec (V.jsonEnc m) = some m

/-- File system visible to the store: the salt file and the
credentials file of the configured directory. -/
structure VaultFS where
  saltFile : Option GoStr
  dataFile : Option GoStr

/-- An open store: derived key and decrypted in-memory data. -/
structure SecretStore where
  key : GoStr
  data : List (GoStr × GoStr)

/-- Errors surfaced by the store. -/
inductive SecErr where
  | invalidPassword
  | keyNotFound
deriving DecidableEq

/-- Model of `getOrCreateSalt`: reuse the salt file when it exists
with the right length, otherwise write a fresh random salt
(`freshSalt`, an external random input). -/
def getOrCreateSalt (fs : VaultFS) (freshSalt : GoStr) : GoStr × VaultFS :=
  match fs.saltFile with
  | some s => if s.length = 16 then (s, fs) else (freshSalt, { fs with saltFile := some freshSalt })
  | none => (freshSalt, { fs with saltFile := some freshSalt })

/-- Model of `secrets.New`: derive the key, and when the credentials
file exists decrypt and JSON-decode it, failing with
`ErrInvalidPassword` on either failure; with no credentials file the
store starts empty. -/
def secretsNew (V : VaultEnv) (fs : VaultFS) (freshSalt : GoStr) (masterPassword : GoStr) :
    Except SecErr SecretStore × VaultFS :=
  let (salt, fs2) := getOrCreateSalt fs freshSalt
  let key := V.kdf masterPassword salt
  match fs2.dataFile with
  | some ct =>
    match V.opn key ct with
    | none => (.error .invalidPassword, fs2)
    | some pt =>
      match V.jsonDec pt with
      | none => (.error .invalidPassword, fs2)
      | some m => (.ok ⟨key, m⟩, fs2)
  | none => (.ok ⟨key, []⟩, fs2)

/-- Model of `Store.save`: marshal, seal under the derived key with a
fresh nonce, rewrite the credentials file wholesale. -/
def storeSave (V : VaultEnv) (nonce : GoStr) (st : SecretStore) (fs : VaultFS) : VaultFS :=
  { fs with dataFile := some (V.gseal st.key nonce (V.jsonEnc st.data)) }

/-- Model of `Store.Set`: update the mapping, then persist. -/
def storeSet (V : VaultEnv) (nonce : GoStr) (st : SecretStore) (fs : VaultFS)
    (k v : GoStr) : SecretStore × VaultFS :=
  let st2 : SecretStore := ⟨st.key, mapSet st.data k v⟩
  (st2, storeSave V nonce st2 fs)

/-- Model of `Store.Delete`: `ErrKeyNotFound` when the key is absent
(nothing is touched), otherwise delete and persist. -/
def storeDelete (V : VaultEnv) (nonce : GoStr) (st : SecretStore) (fs : VaultFS)
    (k : GoStr) : Except SecErr (SecretStore × VaultFS) :=
  if ¬ mapHas st.data k then .error .keyNotFound
  else
    let st2 : SecretStore := ⟨st.key, mapDel st.data k⟩
    .ok (st2, storeSave V nonce st2 fs)

/-- Model of `Store.List`: all keys of the mapping (Go map iteration
order is arbitrary; we expose the list of keys). -/
def storeList (st : SecretStore) : List GoStr :=
  st.data.map Prod.fst

/-! ### Vault lemmas -/

theorem mem_keys_mapSet : ∀ m : List (GoStr × GoStr), ∀ k v x : GoStr,
    (x ∈ (mapSet m k v).map Prod.fst ↔ x = k ∨ x ∈ m.map Prod.fst)
  | [], k, v, x => by simp [mapSet]
  | (k2, v2) :: rest, k, v, x => by
    by_cases h : k2 = k
    · subst h
      rw [mapSet, if_pos rfl]
      simp [or_comm, or_left_comm]
    · rw [mapSet, if_neg h]
      simp only [List.map_cons, List.mem_cons]
      rw [mem_keys_mapSet rest k v x]
      tauto

theorem mapHas_mapSet : ∀ m : List (GoStr × GoStr), ∀ k v x : GoStr,
    mapHas (mapSet m k v) x = (x == k || mapHas m x)
  | [], k, v, x => by simp [mapSet, mapHas, BEq.comm]
  | (k2, v2) :: rest, k, v, x => by
    by_cases h : k2 = k
    · subst h
      rw [mapSet, if_pos rfl]
      simp [mapHas, BEq.comm]
    · rw [mapSet, if_neg h]
      simp only [mapHas, List.any_cons] at *
      rw [show (mapSet rest k v).any (fun p => p.1 == x) = mapHas (mapSet rest k v) x from rfl,
        mapHas_mapSet rest k v x]
      simp only [mapHas, BEq.comm]
      rw [Bool.or_left_comm]

theorem mem_keys_mapDel (m : List (GoStr × GoStr)) (k x : GoStr) :
    x ∈ (mapDel m k).map Prod.fst ↔ x ∈ m.map Prod.fst ∧ x ≠ k := by
  simp only [mapDel, List.mem_map, List.mem_filter]
  constructor
  · rintro ⟨p, ⟨hp, hne⟩, rfl⟩
    simp only [Bool.not_eq_eq_eq_not, Bool.not_true, beq_eq_false_iff_ne] at hne
    exact ⟨⟨p, hp, rfl⟩, hne⟩
  · rintro ⟨⟨p, hp, rfl⟩, hne⟩
    refine ⟨p, ⟨hp, ?_⟩, rfl⟩
    simp only [Bool.not_eq_eq_eq_not, Bool.not_true, beq_eq_false_iff_ne]
    exact hne

theorem secretsNew_ok_facts (V : VaultEnv) (fs0 : VaultFS) (freshSalt P : GoStr)
    (hfresh : freshSalt.length = 16) (st : SecretStore) (fs1 : VaultFS)
    (hopen : secretsNew V fs0 freshSalt P = (.ok st, fs1)) :
    ∃ salt, salt.length = 16 ∧ fs1.saltFile = some salt ∧ st.key = V.kdf P salt := by
  rw [secretsNew] at hopen
  rcases hg : getOrCreateSalt fs0 freshSalt with ⟨salt, fs2⟩
  have hsalt : salt.length = 16 ∧ fs2.saltFile = some salt := by
    rw [getOrCreateSalt] at hg
    split at hg
    · rename_i s heq
      split at hg
      · rename_i hlen
        cases hg
        exact ⟨hlen, heq⟩
      · cases hg
        exact ⟨hfresh, rfl⟩
    · cases hg
      exact ⟨hfresh, rfl⟩
  rw [hg] at hopen
  dsimp only at hopen
  refine ⟨salt, hsalt.1, ?_⟩
  split at hopen
  · split at hopen
    · simp at hopen
    · split at hopen
      · simp at hopen
      · simp only [Prod.mk.injEq, Except.ok.injEq] at hopen
        obtain ⟨hst, hfs⟩ := hopen
        subst hfs
        exact ⟨hsalt.2, by rw [← hst]⟩
  · simp only [Prod.mk.injEq, Except.ok.injEq] at hopen
    obtain ⟨hst, hfs⟩ := hopen
    subst hfs
    exact ⟨hsalt.2, by rw [← hst]⟩

/-! ### Claim C4: wrong master password -/

/-- C4: if a vault is opened with master password `P` and a `Set`
persists the encrypted data file, then reopening the same directory
with any `P2 ≠ P` returns `ErrInvalidPassword` and yields no store
(in particular never a silently empty mapping).  Argon2id is assumed
collision-free across passwords and AES-256-GCM authenticating — the
guarantees of the external primitives. -/
theorem vault_wrong_password (V : VaultEnv) (fs0 : VaultFS)
    (salt0 salt1 nonce k v P P2 : GoStr)
    (hkdfLen : ∀ pw salt, (V.kdf pw salt).length = 32)
    (hkdfInj : ∀ salt, salt.length = 16 → V.kdf P2 salt ≠ V.kdf P salt)
    (hauth : ∀ key key2 n pt, key.length = 32 → key2.length = 32 → key2 ≠ key →
      V.opn key2 (V.gseal key n pt) = none)
    (hsalt0 : salt0.length = 16)
    (st1 : SecretStore) (fs1 : VaultFS)
    (hopen : secretsNew V fs0 salt0 P = (.ok st1, fs1)) :
    (secretsNew V (storeSet V nonce st1 fs1 k v).2 salt1 P2).1 =
      Except.error SecErr.invalidPassword := by
  obtain ⟨salt, hslen, hsf, hkey⟩ := secretsNew_ok_facts V fs0 salt0 P hsalt0 st1 fs1 hopen
  rw [secretsNew]
  have hsf2 : (storeSet V nonce st1 fs1 k v).2.saltFile = some salt := by
    simp [storeSet, storeSave, hsf]
  have hg : getOrCreateSalt (storeSet V nonce st1 fs1 k v).2 salt1 =
      (salt, (storeSet V nonce st1 fs1 k v).2) := by
    rw [getOrCreateSalt, hsf2]
    dsimp only
    rw [if_pos hslen]
  rw [hg]
  dsimp only
  have hdf : (storeSet V nonce st1 fs1 k v).2.dataFile =
      some (V.gseal st1.key nonce (V.jsonEnc (mapSet st1.data k v))) := by
    simp [storeSet, storeSave]
  rw [hdf]
  dsimp only
  have hne : V.kdf P2 salt ≠ st1.key := by
    rw [hkey]; exact hkdfInj salt hslen
  rw [hauth st1.key (V.kdf P2 salt) nonce _ (by rw [hkey]; exact hkdfLen P salt)
    (hkdfLen P2 salt) hne]

/-- Concrete vault primitives for the witness: a prefix-embedding KDF
padded to 32 bytes, and seal/open by key prefixing. -/
def vaultW : VaultEnv where
  kdf := fun pw salt => (pw ++ salt ++ List.replicate 32 0).take 32
  gseal := fun key _ pt => key ++ pt
  opn := fun key ct => if key.length = 32 ∧ ct.take 32 = key then some (ct.drop 32) else none
  jsonEnc := fun _ => []
  jsonDec := fun _ => none

/-- Witness for C4: open a fresh directory with password `[1]`, set a
key, reopen with password `[2]`. -/
theorem vault_wrong_password_witness :
    (secretsNew vaultW
      (storeSet vaultW (List.replicate 12 0)
        ⟨1 :: List.replicate 31 0, []⟩ ⟨some (List.replicate 16 0), none⟩ [5] [6]).2
      (List.replicate 16 1) [2]).1 = Except.error SecErr.invalidPassword := by
  refine vault_wrong_password vaultW ⟨none, none⟩ (List.replicate 16 0) (List.replicate 16 1)
    (List.replicate 12 0) [5] [6] [1] [2] ?_ ?_ ?_ (by decide)
    ⟨1 :: List.replicate 31 0, []⟩ ⟨some (List.replicate 16 0), none⟩ rfl
  · intro pw salt
    simp [vaultW]
    omega
  · intro salt hs h
    simp only [vaultW, List.cons_append, List.nil_append, List.take_succ_cons,
      List.cons.injEq] at h
    exact absurd h.1 (by decide)
  · intro key key2 n pt hk hk2 hne
    show (if key2.length = 32 ∧ (key ++ pt).take 32 = key2 then
      some ((key ++ pt).drop 32) else none) = none
    rw [if_neg]
    intro hcon
    rw [List.take_left' hk] at hcon
    exact hne hcon.2.symm

/-! ### Claim C9: map semantics of Set/Delete/List -/

/-- C9: after `Set(k1,v1)`, `Set(k2,v2)`, `Delete(k1)` on any open
store, `List()` contains exactly `k2` plus the pre-existing keys other
than `k1`; and `Delete` of an absent key returns `ErrKeyNotFound` and
produces no new store or file state (the prior in-memory mapping and
on-disk file are untouched). -/
theorem vault_delete_list (V : VaultEnv) (st : SecretStore) (fs : VaultFS)
    (k1 k2 v1 v2 n1 n2 n3 : GoStr) (hk : k1 ≠ k2) :
    (∃ st3 fs3,
      storeDelete V n3
        (storeSet V n2 (storeSet V n1 st fs k1 v1).1 (storeSet V n1 st fs k1 v1).2 k2 v2).1
        (storeSet V n2 (storeSet V n1 st fs k1 v1).1 (storeSet V n1 st fs k1 v1).2 k2 v2).2
        k1 = .ok (st3, fs3) ∧
      ∀ x, x ∈ storeList st3 ↔ (x = k2 ∨ (x ∈ storeList st ∧ x ≠ k1)))
    ∧ ∀ st4 : SecretStore, ∀ fs4 n4 k4, mapHas st4.data k4 = false →
        storeDelete V n4 st4 fs4 k4 = .error SecErr.keyNotFound := by
  constructor
  · set st2 := (storeSet V n2 (storeSet V n1 st fs k1 v1).1
      (storeSet V n1 st fs k1 v1).2 k2 v2).1 with hst2
    set fs2 := (storeSet V n2 (storeSet V n1 st fs k1 v1).1
      (storeSet V n1 st fs k1 v1).2 k2 v2).2 with hfs2
    have hdata2 : st2.data = mapSet (mapSet st.data k1 v1) k2 v2 := rfl
    have hhas : mapHas st2.data k1 = true := by
      rw [hdata2, mapHas_mapSet, mapHas_mapSet]
      simp
    refine ⟨⟨st2.key, mapDel st2.data k1⟩,
      storeSave V n3 ⟨st2.key, mapDel st2.data k1⟩ fs2, ?_, ?_⟩
    · rw [storeDelete, if_neg (by rw [hhas]; simp)]
    · intro x
      show x ∈ (mapDel st2.data k1).map Prod.fst ↔ _
      rw [hdata2, mem_keys_mapDel, mem_keys_mapSet, mem_keys_mapSet]
      unfold storeList
      constructor
      · rintro ⟨(rfl | rfl | hx), hne⟩
        · exact Or.inl rfl
        · exact absurd rfl hne
        · exact Or.inr ⟨hx, hne⟩
      · rintro (rfl | ⟨hx, hne⟩)
        · exact ⟨Or.inl rfl, Ne.symm hk⟩
        · exact ⟨Or.inr (Or.inr hx), hne⟩
  · intro st4 fs4 n4 k4 h
    rw [storeDelete, if_pos (by rw [h]; simp)]

/-- Witness for C9 at a concrete store, keys and values. -/
theorem vault_delete_list_witness :
    (∃ st3 fs3,
      storeDelete vaultW [9]
        (storeSet vaultW [8]
          (storeSet vaultW [7] ⟨[], []⟩ ⟨none, none⟩ [1] [10]).1
          (storeSet vaultW [7] ⟨[], []⟩ ⟨none, none⟩ [1] [10]).2 [2] [20]).1
        (storeSet vaultW [8]
          (storeSet vaultW [7] ⟨[], []⟩ ⟨none, none⟩ [1] [10]).1
          (storeSet vaultW [7] ⟨[], []⟩ ⟨none, none⟩ [1] [10]).2 [2] [20]).2
        [1] = .ok (st3, fs3) ∧
      ∀ x, x ∈ storeList st3 ↔ (x = [2] ∨ (x ∈ storeList (⟨[], []⟩ : SecretStore) ∧ x ≠ [1])))
    ∧ ∀ st4 : SecretStore, ∀ fs4 n4 k4, mapHas st4.data k4 = false →
        storeDelete vaultW n4 st4 fs4 k4 = .error SecErr.keyNotFound :=
  vault_delete_list vaultW ⟨[], []⟩ ⟨none, none⟩ [1] [2] [10] [20] [7] [8] [9] (by decide)

/-! ### Import engine (`internal/core/core.go`, CSV and database layer)

The abstract Record Store is a list of connection rows; the SQL layer
of the repository maps `GetExistingConnectionIDs` to membership,
`InsertConnection` to appending a row and `UpdateConnection` to
replacing the row with the matching id (failing when no row matches,
per its `RowsAffected == 0` check).  External failures of the driver
are modelled by oracles in the environment, `encoding/json` parsing by
an abstract function, and the IVs/timestamps drawn inside
`EncryptString` by per-call external inputs. -/

/-- Model of `models.Profile` (fields used by `Validate`). -/
structure Profile where
  id : GoStr
  name : GoStr
  dbHost : GoStr
  dbPort : Int
  dbName : GoStr
  dbUser : GoStr
  fernetKey : GoStr
deriving DecidableEq

/-- Model of `Profile.Validate` (true iff no validation error). -/
def Profile.validateOk (p : Profile) : Bool :=
  !(p.id == []) && !(p.name == []) && !(p.dbHost == []) &&
    decide (0 < p.dbPort) && decide (p.dbPort ≤ 65535) &&
    !(p.dbName == []) && !(p.dbUser == []) && !(p.fernetKey == [])

/-- Model of `models.Connection`. -/
structure Conn where
  id : GoStr
  connType : GoStr
  description : GoStr
  host : GoStr
  schema : GoStr
  login : GoStr
  password : GoStr
  port : Int
  extra : GoStr
  isEncrypted : Bool
  isTested : Bool
deriving DecidableEq

/-- Model of `models.ExportRecord`. -/
structure ExportRecord where
  connID : GoStr
  connType : GoStr
  description : GoStr
  host : GoStr
  schema : GoStr
  login : GoStr
  password : GoStr
  port : Int
  extra : GoStr
  isEncrypted : Bool
  isExtraEncrypted : Bool
  exportedAt : GoStr
deriving DecidableEq

/-- Model of `services.ConnectionData`, the JSON blob of one CSV row. -/
structure ConnectionData where
  connType : GoStr
  description : GoStr
  host : GoStr
  schema : GoStr
  login : GoStr
  password : GoStr
  port : Int
  extra : GoStr
  isEncrypted : Bool
  isExtraEncrypted : Bool
  exportedAt : GoStr
deriving DecidableEq

/-- Model of `ExportRecord.ToConnection`. -/
def ExportRecord.toConnection (r : ExportRecord) : Conn :=
  { id := r.connID, connType := r.connType, description := r.description,
    host := r.host, schema := r.schema, login := r.login, password := r.password,
    port := r.port, extra := r.extra, isEncrypted := false, isTested := false }

/-- Record built by `ReadEncryptedCSV` from a row id and its decrypted
JSON blob. -/
def mkExportRecord (connID : GoStr) (d : ConnectionData) : ExportRecord :=
  { connID := connID, connType := d.connType, description := d.description,
    host := d.host, schema := d.schema, login := d.login, password := d.password,
    port := d.port, extra := d.extra, isEncrypted := d.isEncrypted,
    isExtraEncrypted := d.isExtraEncrypted, exportedAt := d.exportedAt }

/-- One row of `ReadEncryptedCSV`: the row needs two columns, its
token must decrypt and its blob must JSON-parse. -/
def readRow (jsonParse : GoStr → Option ConnectionData) (F : FernetPrims)
    (row : List GoStr) : Option ExportRecord :=
  match row with
  | a :: b :: _ =>
    match fernetDecrypt F b with
    | none => none
    | some pt =>
      match jsonParse pt with
      | none => none
      | some d => some (mkExportRecord a d)
  | _ => none

/-- Row-by-row body of `ReadEncryptedCSV`: any failing row aborts the
whole read. -/
def readRows (jsonParse : GoStr → Option ConnectionData) (F : FernetPrims) :
    List (List GoStr) → Option (List ExportRecord)
  | [] => some []
  | row :: rest =>
    match readRow jsonParse F row with
    | none => none
    | some r =>
      match readRows jsonParse F rest with
      | none => none
      | some tl => some (r :: tl)

/-- Model of `services.ReadEncryptedCSV` on the parsed CSV rows: fewer
than two rows (header only or empty) yields zero records. -/
def ReadEncryptedCSV (jsonParse : GoStr → Option ConnectionData) (F : FernetPrims)
    (rows : List (List GoStr)) : Option (List ExportRecord) :=
  if rows.length < 2 then some [] else readRows jsonParse F rows.tail

/-- Model of `models.CollisionStrategy`. -/
inductive CollisionStrategy where
  | stop
  | skip
  | overwrite
deriving DecidableEq

/-- Errors of the import flow, mirroring the `result.Error` strings of
`Migrator.Import`; `collisions` carries the identifiers listed in the
"connections already exist" message. -/
inductive ImportErr where
  | invalidProfile
  | invalidFileKey
  | readFailed
  | connectFailed
  | invalidTargetKey
  | checkExistingFailed
  | collisions (ids : List GoStr)
  | updateFailed (id : GoStr)
  | insertFailed (id : GoStr)
deriving DecidableEq

/-- Model of `models.ImportResult`. -/
structure ImportResult where
  success : Bool := false
  importedCount : Nat := 0
  skippedCount : Nat := 0
  overwrittenCount : Nat := 0
  importedIDs : List GoStr := []
  skippedIDs : List GoStr := []
  overwrittenIDs : List GoStr := []
  error : Option ImportErr := none
deriving DecidableEq

/-- Environment of one `Import` call: the Fernet primitives of the
file key and the target profile key, the JSON decoder, the external
IV/timestamp draws of each `EncryptString` call, the target database
rows, and failure oracles for the external database driver. -/
structure ImportEnv where
  filePrims : FernetPrims
  targetPrims : FernetPrims
  jsonParse : GoStr → Option ConnectionData
  ivs : Nat → GoStr
  tss : Nat → Nat
  db : List Conn
  connectFails : Bool
  queryFails : Bool
  insertErr : GoStr → Bool
  updateErr : GoStr → Bool

/-- Model of `models.ImportRequest` (the input file is given as its
parsed CSV rows). -/
structure ImportReq where
  targetProfile : Profile
  fileDecryptionKey : GoStr
  csvRows : List (List GoStr)
  collisionStrategy : CollisionStrategy
  connPfx : GoStr
  connectionIDs : List GoStr

/-- One write performed on the record store. -/
inductive WriteOp where
  | insert (c : Conn)
  | update (c : Conn)
deriving DecidableEq

/-- Identifier written by an operation. -/
def WriteOp.connID : WriteOp → GoStr
  | .insert c => c.id
  | .update c => c.id

/-- Identifiers present in the store. -/
def dbIDs (rows : List Conn) : List GoStr := rows.map Conn.id

/-- Model of `Database.GetExistingConnectionIDs`: empty input short
circuits; otherwise the ids of the store rows whose id is among the
requested ones (driver failures via the oracle). -/
def GetExistingConnectionIDs (env : ImportEnv) (ids : List GoStr) : Option (List GoStr) :=
  if ids = [] then some []
  else if env.queryFails then none
  else some ((dbIDs env.db).filter (fun i => ids.contains i))

/-- Model of `Database.InsertConnection` on the abstract store. -/
def dbInsert (env : ImportEnv) (rows : List Conn) (c : Conn) : Option (List Conn) :=
  if env.insertErr c.id then none else some (rows ++ [c])

/-- Model of `Database.UpdateConnection`: replaces the matching row;
fails when no row matches (`RowsAffected == 0`). -/
def dbUpdate (env : ImportEnv) (rows : List Conn) (c : Conn) : Option (List Conn) :=
  if env.updateErr c.id then none
  else if rows.all (fun r => !(r.id == c.id)) then none
  else some (rows.map fun r => if r.id = c.id then c else r)

/-- State threaded through the import write loop. -/
structure LoopState where
  res : ImportResult
  rows : List Conn
  log : List WriteOp

/-- Field re-encryption of the import loop: non-empty values are
encrypted with the target key (`EncryptString`), empty values are left
untouched by the `!= ""` guards. -/
def reencrypt (env : ImportEnv) (k : Nat) (s : GoStr) : GoStr :=
  if s = [] then s else fernetEncrypt env.targetPrims (env.ivs k) (env.tss k) s

/-- Prefix application (`if req.ConnectionPrefix != ""`). -/
def applyPfx (pfx id : GoStr) : GoStr := if pfx = [] then id else pfx ++ id

/-- The write loop of `Migrator.Import` (source lines 207-259):
skip/overwrite handling, field re-encryption, insert-or-update, and
`Success = true` after the loop; a failing write aborts with the
counts accumulated so far. -/
def importLoop (env : ImportEnv) (strat : CollisionStrategy) (pfx : GoStr)
    (existingSet : GoStr → Bool) : Nat → List ExportRecord → LoopState → LoopState
  | _, [], st => { st with res := { st.res with success := true } }
  | n, r :: rest, st =>
    let conn0 := r.toConnection
    let cid := applyPfx pfx conn0.id
    let ex := existingSet cid
    if ex ∧ strat = .skip then
      importLoop env strat pfx existingSet (n + 1) rest
        { st with res := { st.res with
            skippedIDs := st.res.skippedIDs ++ [cid],
            skippedCount := st.res.skippedCount + 1 } }
    else
      let c1 : Conn := { conn0 with
        id := cid,
        password := reencrypt env (2 * n) conn0.password,
        extra := reencrypt env (2 * n + 1) conn0.extra }
      if ex then
        match dbUpdate env st.rows c1 with
        | none => { st with res := { st.res with error := some (.updateFailed cid) } }
        | some rows2 =>
          importLoop env strat pfx existingSet (n + 1) rest
            { res := { st.res with
                overwrittenIDs := st.res.overwrittenIDs ++ [cid],
                overwrittenCount := st.res.overwrittenCount + 1 },
              rows := rows2, log := st.log ++ [.update c1] }
      else
        match dbInsert env st.rows c1 with
        | none => { st with res := { st.res with error := some (.insertFailed cid) } }
        | some rows2 =>
          importLoop env strat pfx existingSet (n + 1) rest
            { res := { st.res with
                importedIDs := st.res.importedIDs ++ [cid],
                importedCount := st.res.importedCount + 1 },
              rows := rows2, log := st.log ++ [.insert c1] }

/-- The all-failure-fields-zero result a fresh `Import` starts from. -/
def emptyResult : ImportResult := {}

/-- Model of `Migrator.Import`.  Returns the result object together
with the write log and the final store rows. -/
def Import (env : ImportEnv) (req : ImportReq) : ImportResult × List WriteOp × List Conn :=
  if req.targetProfile.validateOk = false then
    ({ emptyResult with error := some .invalidProfile }, [], env.db)
  else if NewFernetOk req.fileDecryptionKey = false then
    ({ emptyResult with error := some .invalidFileKey }, [], env.db)
  else
    match ReadEncryptedCSV env.jsonParse env.filePrims req.csvRows with
    | none => ({ emptyResult with error := some .readFailed }, [], env.db)
    | some records0 =>
      if records0 = [] then ({ emptyResult with success := true }, [], env.db)
      else if env.connectFails then
        ({ emptyResult with error := some .connectFailed }, [], env.db)
      else if NewFernetOk req.targetProfile.fernetKey = false then
        ({ emptyResult with error := some .invalidTargetKey }, [], env.db)
      else
        let records := if req.connectionIDs ≠ [] then
            records0.filter (fun r => req.connectionIDs.contains r.connID)
          else records0
        let idsToCheck := records.map (fun r => applyPfx req.connPfx r.connID)
        match GetExistingConnectionIDs env idsToCheck with
        | none => ({ emptyResult with error := some .checkExistingFailed }, [], env.db)
        | some existingIDs =>
          if req.collisionStrategy = .stop ∧ existingIDs ≠ [] then
            ({ emptyResult with error := some (.collisions existingIDs) }, [], env.db)
          else
            let st := importLoop env req.collisionStrategy req.connPfx
              (fun i => existingIDs.contains i) 0 records ⟨emptyResult, env.db, []⟩
            (st.res, st.log, st.rows)

/-! ### Claim C10: count/list consistency -/

/-- Consistency of an `ImportResult`: every count equals the length of
its identifier list. -/
def countsOk (res : ImportResult) : Prop :=
  res.importedCount = res.importedIDs.length ∧
  res.skippedCount = res.skippedIDs.length ∧
  res.overwrittenCount = res.overwrittenIDs.length

theorem importLoop_countsOk (env : ImportEnv) (strat : CollisionStrategy) (pfx : GoStr)
    (exset : GoStr → Bool) :
    ∀ recs : List ExportRecord, ∀ n st, countsOk st.res →
      countsOk (importLoop env strat pfx exset n recs st).res
  | [], n, st, h => by
    rw [importLoop]
    exact h
  | r :: rest, n, st, h => by
    rw [importLoop]
    dsimp only
    split
    · refine importLoop_countsOk env strat pfx exset rest (n + 1) _ ?_
      obtain ⟨h1, h2, h3⟩ := h
      refine ⟨h1, ?_, h3⟩
      simp [h2]
    · split
      · split
        · exact h
        · refine importLoop_countsOk env strat pfx exset rest (n + 1) _ ?_
          obtain ⟨h1, h2, h3⟩ := h
          refine ⟨h1, h2, ?_⟩
          simp [h3]
      · split
        · exact h
        · refine importLoop_countsOk env strat pfx exset rest (n + 1) _ ?_
          obtain ⟨h1, h2, h3⟩ := h
          refine ⟨?_, h2, h3⟩
          simp [h1]

/-- C10: on every value returned by `Import`, success or failure,
`ImportedCount` equals the length of `ImportedIDs`, `SkippedCount`
the length of `SkippedIDs`, and `OverwrittenCount` the length of
`OverwrittenIDs`. -/
theorem import_counts_consistent (env : ImportEnv) (req : ImportReq) :
    countsOk (Import env req).1 := by
  rw [Import]
  repeat' split
  all_goals dsimp only
  repeat' split
  all_goals
    first
      | exact ⟨rfl, rfl, rfl⟩
      | exact importLoop_countsOk _ _ _ _ _ 0 _ ⟨rfl, rfl, rfl⟩

/-! ### Claim C5: collision strategy stop -/

/-- C5: with strategy `stop`, whenever the set of effective target
identifiers (prefix + original id) already existing in the target
store is non-empty, `Import` aborts with the error naming the
colliding identifiers, performs zero inserts and zero updates, and
reports `success = false`. -/
theorem import_stop_aborts (env : ImportEnv) (req : ImportReq)
    (hstrat : req.collisionStrategy = .stop)
    (hval : req.targetProfile.validateOk = true)
    (hfk : NewFernetOk req.fileDecryptionKey = true)
    (recs0 : List ExportRecord)
    (hread : ReadEncryptedCSV env.jsonParse env.filePrims req.csvRows = some recs0)
    (hne : recs0 ≠ [])
    (hconn : env.connectFails = false)
    (htk : NewFernetOk req.targetProfile.fernetKey = true)
    (existingIDs : List GoStr)
    (hex : GetExistingConnectionIDs env
      ((if req.connectionIDs ≠ [] then
          recs0.filter (fun r => req.connectionIDs.contains r.connID)
        else recs0).map (fun r => applyPfx req.connPfx r.connID)) = some existingIDs)
    (hexne : existingIDs ≠ []) :
    (Import env req).1.error = some (.collisions existingIDs) ∧
    (Import env req).2.1 = [] ∧
    (Import env req).1.success = false := by
  rw [Import, if_neg (by rw [hval]; simp), if_neg (by rw [hfk]; simp)]
  simp only [hread]
  rw [if_neg hne, if_neg (by rw [hconn]; simp), if_neg (by rw [htk]; simp)]
  simp only [hex]
  rw [if_pos ⟨hstrat, hexne⟩]
  exact ⟨rfl, rfl, rfl⟩

/-- Shared concrete fixtures for the import witnesses: a valid 32-byte
key in base64, one interchange row whose token decrypts (under the
identity-cipher instance) to the one-byte blob `[7]`, a JSON decoder
mapping the blob to a record with that password, and a valid target
profile. -/
def keyW : GoStr := base64EncodeBytes urlAlpha (List.replicate 32 0)

def tokW : GoStr := fernetEncrypt idPrims (List.replicate 16 0) 0 [7]

def connDataW : ConnectionData :=
  { connType := [1], description := [], host := [], schema := [],
    login := [], password := [7], port := 0, extra := [], isEncrypted := true,
    isExtraEncrypted := false, exportedAt := [] }

def profileW : Profile := ⟨[1], [1], [1], 5432, [1], [1], keyW⟩

def rowW : Conn := ⟨[99], [1], [], [], [], [], [3], 0, [], false, false⟩

def envW (db : List Conn) : ImportEnv :=
  { filePrims := idPrims, targetPrims := idPrims,
    jsonParse := fun _ => some connDataW,
    ivs := fun _ => List.replicate 16 0, tss := fun _ => 0, db := db,
    connectFails := false, queryFails := false,
    insertErr := fun _ => false, updateErr := fun _ => false }

def reqW (strat : CollisionStrategy) : ImportReq :=
  { targetProfile := profileW, fileDecryptionKey := keyW,
    csvRows := [[[], []], [[99], tokW]], collisionStrategy := strat,
    connPfx := [], connectionIDs := [] }

/-- The one record `ReadEncryptedCSV` produces from the witness file. -/
def recW : ExportRecord := mkExportRecord [99] connDataW

/-- Witness for C5: the target already holds id `[99]`, the file
carries the same id, strategy is `stop`. -/
theorem import_stop_aborts_witness :
    (Import (envW [rowW]) (reqW .stop)).1.error = some (.collisions [[99]]) ∧
    (Import (envW [rowW]) (reqW .stop)).2.1 = [] ∧
    (Import (envW [rowW]) (reqW .stop)).1.success = false :=
  import_stop_aborts (envW [rowW]) (reqW .stop) rfl (by decide) (by decide)
    [recW] (by decide) (by decide) rfl (by decide) [[99]] (by decide) (by decide)

/-! ### Claim C6: full decrypt before any write -/

theorem readRow_none (jsonParse : GoStr → Option ConnectionData) (F : FernetPrims)
    (row : List GoStr) (hlen : 2 ≤ row.length)
    (hfail : (fernetDecrypt F (row.getD 1 [])).bind jsonParse = none) :
    readRow jsonParse F row = none := by
  match row, hlen with
  | a :: b :: tl, _ =>
    rw [readRow]
    have hb : (a :: b :: tl).getD 1 [] = b := rfl
    rw [hb] at hfail
    cases hdec : fernetDecrypt F b with
    | none => rfl
    | some pt =>
      rw [hdec] at hfail
      have hjp : jsonParse pt = none := hfail
      dsimp only
      rw [hjp]

theorem readRows_fails (jsonParse : GoStr → Option ConnectionData) (F : FernetPrims) :
    ∀ rows : List (List GoStr), ∀ row ∈ rows, readRow jsonParse F row = none →
      readRows jsonParse F rows = none
  | [], row, hmem, _ => by simp at hmem
  | r :: rest, row, hmem0, hfail => by
    rw [readRows]
    rcases List.mem_cons.mp hmem0 with rfl | hmem
    · rw [hfail]
    · cases hr : readRow jsonParse F r with
      | none => rfl
      | some rec =>
        rw [readRows_fails jsonParse F rest row hmem hfail]

/-- C6: every interchange row is decrypted (and JSON-parsed) before
any record-store mutation; if any row fails, `Import` returns an error
having performed no insert and no update (`Option.bind` composes the
decrypt and the JSON parse, so `none` covers both failure kinds). -/
theorem import_row_failure_no_writes (env : ImportEnv) (req : ImportReq)
    (row : List GoStr) (hmem : row ∈ req.csvRows.tail) (hlen : 2 ≤ row.length)
    (hfail : (fernetDecrypt env.filePrims (row.getD 1 [])).bind env.jsonParse = none) :
    (Import env req).1.error.isSome = true ∧ (Import env req).2.1 = [] ∧
    (Import env req).1.success = false := by
  have hrlen : ¬ req.csvRows.length < 2 := by
    cases hcs : req.csvRows with
    | nil => rw [hcs] at hmem; simp at hmem
    | cons a t =>
      cases t with
      | nil => rw [hcs] at hmem; simp at hmem
      | cons b t2 => simp [hcs]
  have hread : ReadEncryptedCSV env.jsonParse env.filePrims req.csvRows = none := by
    rw [ReadEncryptedCSV, if_neg hrlen]
    exact readRows_fails env.jsonParse env.filePrims req.csvRows.tail row hmem
      (readRow_none env.jsonParse env.filePrims row hlen hfail)
  rw [Import]
  by_cases h1 : req.targetProfile.validateOk = false
  · rw [if_pos h1]
    exact ⟨rfl, rfl, rfl⟩
  · rw [if_neg h1]
    by_cases h2 : NewFernetOk req.fileDecryptionKey = false
    · rw [if_pos h2]
      exact ⟨rfl, rfl, rfl⟩
    · rw [if_neg h2]
      simp [hread, emptyResult]

/-- Witness for C6: one row whose token is the empty string, which
fails to base64-decode to a 73-byte token. -/
theorem import_row_failure_no_writes_witness :
    (Import (envW []) { reqW .skip with csvRows := [[[], []], [[1], []]] }).1.error.isSome =
      true ∧
    (Import (envW []) { reqW .skip with csvRows := [[[], []], [[1], []]] }).2.1 = [] ∧
    (Import (envW []) { reqW .skip with csvRows := [[[], []], [[1], []]] }).1.success = false :=
  import_row_failure_no_writes (envW []) { reqW .skip with csvRows := [[[], []], [[1], []]] }
    [[1], []] (by decide) (by decide) (by decide)

/-! ### Write-loop lemmas for C3 and C7 -/

/-- The connection the loop writes for record `r` at loop position
`m`: prefixed id and fields re-encrypted under the target key. -/
def mkImportConn (env : ImportEnv) (m : Nat) (cid : GoStr) (r : ExportRecord) : Conn :=
  { r.toConnection with
    id := cid,
    password := reencrypt env (2 * m) r.toConnection.password,
    extra := reencrypt env (2 * m + 1) r.toConnection.extra }

/-- First store row with the given id (`SELECT ... WHERE conn_id = x`). -/
def lookupConn (rows : List Conn) (x : GoStr) : Option Conn :=
  rows.find? (fun c => c.id == x)

theorem dbIDs_update_eq (rows : List Conn) (c : Conn) :
    dbIDs (rows.map fun r => if r.id = c.id then c else r) = dbIDs rows := by
  induction rows with
  | nil => rfl
  | cons r rest ih =>
    simp only [dbIDs, List.map_cons] at ih ⊢
    by_cases h : r.id = c.id
    · rw [if_pos h, ih, h]
    · rw [if_neg h, ih]

theorem lookupConn_append_ne (rows : List Conn) (c : Conn) (x : GoStr) (h : c.id ≠ x) :
    lookupConn (rows ++ [c]) x = lookupConn rows x := by
  induction rows with
  | nil =>
    simp only [lookupConn, List.nil_append]
    rw [List.find?_cons_of_neg _ (by simpa using h)]
  | cons r rest ih =>
    by_cases hr : (r.id == x) = true
    · simp only [lookupConn, List.cons_append,
        @List.find?_cons_of_pos Conn (fun c => c.id == x) r (rest ++ [c]) hr,
        @List.find?_cons_of_pos Conn (fun c => c.id == x) r rest hr]
    · simp only [lookupConn, List.cons_append,
        @List.find?_cons_of_neg Conn (fun c => c.id == x) r (rest ++ [c]) hr,
        @List.find?_cons_of_neg Conn (fun c => c.id == x) r rest hr] at ih ⊢
      exact ih

theorem importLoop_mono (env : ImportEnv) (strat : CollisionStrategy) (pfx : GoStr)
    (exset : GoStr → Bool) :
    ∀ recs : List ExportRecord, ∀ n st,
      (∀ x, x ∈ st.res.skippedIDs →
        x ∈ (importLoop env strat pfx exset n recs st).res.skippedIDs) ∧
      (∀ x, x ∈ st.res.importedIDs →
        x ∈ (importLoop env strat pfx exset n recs st).res.importedIDs) ∧
      (∀ x, x ∈ st.res.overwrittenIDs →
        x ∈ (importLoop env strat pfx exset n recs st).res.overwrittenIDs) ∧
      (∀ op, op ∈ st.log → op ∈ (importLoop env strat pfx exset n recs st).log)
  | [], n, st => by
    rw [importLoop]
    exact ⟨fun x h => h, fun x h => h, fun x h => h, fun op h => h⟩
  | r :: rest, n, st => by
    rw [importLoop]
    dsimp only
    split
    · obtain ⟨h1, h2, h3, h4⟩ := importLoop_mono env strat pfx exset rest (n + 1)
        { st with res := { st.res with
            skippedIDs := st.res.skippedIDs ++ [applyPfx pfx r.toConnection.id],
            skippedCount := st.res.skippedCount + 1 } }
      exact ⟨fun x h => h1 x (by simp [h]), h2, h3, h4⟩
    · split
      · split
        · exact ⟨fun x h => h, fun x h => h, fun x h => h, fun op h => h⟩
        · rename_i rows2 heq
          obtain ⟨h1, h2, h3, h4⟩ := importLoop_mono env strat pfx exset rest (n + 1) _
          exact ⟨h1, h2, fun x h => h3 x (by simp [h]), fun op h => h4 op (by simp [h])⟩
      · split
        · exact ⟨fun x h => h, fun x h => h, fun x h => h, fun op h => h⟩
        · rename_i rows2 heq
          obtain ⟨h1, h2, h3, h4⟩ := importLoop_mono env strat pfx exset rest (n + 1) _
          exact ⟨h1, fun x h => h2 x (by simp [h]), h3, fun op h => h4 op (by simp [h])⟩

theorem mem_dbIDs (rows : List Conn) (x : GoStr) :
    x ∈ dbIDs rows ↔ ∃ c ∈ rows, c.id = x := by
  simp [dbIDs]

theorem dbInsert_some (env : ImportEnv) (hins : ∀ s2, env.insertErr s2 = false)
    (rows : List Conn) (c : Conn) : dbInsert env rows c = some (rows ++ [c]) := by
  rw [dbInsert, if_neg (by rw [hins]; simp)]

theorem dbUpdate_some (env : ImportEnv) (hupd : ∀ s2, env.updateErr s2 = false)
    (rows : List Conn) (c : Conn) (hmem : c.id ∈ dbIDs rows) :
    dbUpdate env rows c = some (rows.map fun r => if r.id = c.id then c else r) := by
  rw [dbUpdate, if_neg (by rw [hupd]; simp), if_neg]
  intro hall
  rw [List.all_eq_true] at hall
  obtain ⟨c0, hc0, hc0id⟩ := (mem_dbIDs rows c.id).mp hmem
  have := hall c0 hc0
  rw [hc0id] at this
  simp at this

theorem importLoop_mem (env : ImportEnv) (strat : CollisionStrategy) (pfx : GoStr)
    (exset : GoStr → Bool)
    (hins : ∀ s2, env.insertErr s2 = false)
    (hupd : ∀ s2, env.updateErr s2 = false) :
    ∀ recs : List ExportRecord, ∀ n, ∀ st : LoopState,
      (∀ i, exset i = true → i ∈ dbIDs st.rows) →
      ∀ r ∈ recs,
        (exset (applyPfx pfx r.toConnection.id) = true → strat = .skip →
          applyPfx pfx r.toConnection.id ∈
            (importLoop env strat pfx exset n recs st).res.skippedIDs) ∧
        (exset (applyPfx pfx r.toConnection.id) = true → strat = .overwrite →
          applyPfx pfx r.toConnection.id ∈
            (importLoop env strat pfx exset n recs st).res.overwrittenIDs ∧
          ∃ m, WriteOp.update (mkImportConn env m (applyPfx pfx r.toConnection.id) r) ∈
            (importLoop env strat pfx exset n recs st).log) ∧
        (exset (applyPfx pfx r.toConnection.id) = false →
          applyPfx pfx r.toConnection.id ∈
            (importLoop env strat pfx exset n recs st).res.importedIDs ∧
          ∃ m, WriteOp.insert (mkImportConn env m (applyPfx pfx r.toConnection.id) r) ∈
            (importLoop env strat pfx exset n recs st).log)
  | [], n, st, hINV, r, hr => by simp at hr
  | r0 :: rest, n, st, hINV, r, hr => by
    rw [importLoop]
    dsimp only
    by_cases hb : exset (applyPfx pfx r0.toConnection.id) = true ∧ strat = .skip
    · rw [if_pos hb]
      rcases List.mem_cons.mp hr with rfl | hrmem
      · refine ⟨fun _ _ => ?_, fun _ hov => ?_, fun hf => ?_⟩
        · exact (importLoop_mono env strat pfx exset rest (n + 1) _).1 _ (by simp)
        · rw [hb.2] at hov
          simp at hov
        · rw [hf] at hb
          simp at hb
      · exact importLoop_mem env strat pfx exset hins hupd rest (n + 1)
          { st with res := { st.res with
              skippedIDs := st.res.skippedIDs ++ [applyPfx pfx r0.toConnection.id],
              skippedCount := st.res.skippedCount + 1 } }
          (fun i hi => hINV i hi) r hrmem
    · rw [if_neg hb]
      by_cases hex : exset (applyPfx pfx r0.toConnection.id) = true
      · have hupdeq := dbUpdate_some env hupd st.rows
          { r0.toConnection with
            id := applyPfx pfx r0.toConnection.id,
            password := reencrypt env (2 * n) r0.toConnection.password,
            extra := reencrypt env (2 * n + 1) r0.toConnection.extra }
          (hINV _ hex)
        rw [if_pos hex, hupdeq]
        dsimp only
        have hINV2 : ∀ i, exset i = true →
            i ∈ dbIDs (st.rows.map fun r2 =>
              if r2.id = applyPfx pfx r0.toConnection.id then
                { r0.toConnection with
                  id := applyPfx pfx r0.toConnection.id,
                  password := reencrypt env (2 * n) r0.toConnection.password,
                  extra := reencrypt env (2 * n + 1) r0.toConnection.extra }
              else r2) := by
          intro i hi
          rw [show (st.rows.map fun r2 =>
              if r2.id = applyPfx pfx r0.toConnection.id then
                { r0.toConnection with
                  id := applyPfx pfx r0.toConnection.id,
                  password := reencrypt env (2 * n) r0.toConnection.password,
                  extra := reencrypt env (2 * n + 1) r0.toConnection.extra }
              else r2) = (st.rows.map fun r2 =>
              if r2.id = ({ r0.toConnection with
                  id := applyPfx pfx r0.toConnection.id,
                  password := reencrypt env (2 * n) r0.toConnection.password,
                  extra := reencrypt env (2 * n + 1) r0.toConnection.extra } : Conn).id then
                { r0.toConnection with
                  id := applyPfx pfx r0.toConnection.id,
                  password := reencrypt env (2 * n) r0.toConnection.password,
                  extra := reencrypt env (2 * n + 1) r0.toConnection.extra }
              else r2) from rfl, dbIDs_update_eq]
          exact hINV i hi
        rcases List.mem_cons.mp hr with rfl | hrmem
        · refine ⟨fun _ hsk => absurd ⟨hex, hsk⟩ hb, fun _ _ => ?_, fun hf => ?_⟩
          · constructor
            · exact (importLoop_mono env strat pfx exset rest (n + 1) _).2.2.1 _ (by simp)
            · exact ⟨n, (importLoop_mono env strat pfx exset rest (n + 1) _).2.2.2 _ (by
                simp [mkImportConn])⟩
          · rw [hf] at hex
            simp at hex
        · exact importLoop_mem env strat pfx exset hins hupd rest (n + 1) _ hINV2 r hrmem
      · have hex2 : exset (applyPfx pfx r0.toConnection.id) = false := by
          simpa using hex
        rw [if_neg hex]
        rw [dbInsert_some env hins st.rows _]
        dsimp only
        have hINV2 : ∀ i, exset i = true →
            i ∈ dbIDs (st.rows ++ [{ r0.toConnection with
              id := applyPfx pfx r0.toConnection.id,
              password := reencrypt env (2 * n) r0.toConnection.password,
              extra := reencrypt env (2 * n + 1) r0.toConnection.extra }]) := by
          intro i hi
          have := hINV i hi
          simp only [dbIDs, List.map_append] at *
          exact List.mem_append_left _ this
        rcases List.mem_cons.mp hr with rfl | hrmem
        · refine ⟨fun ht _ => absurd ht (by rw [hex2]; simp), fun ht _ => absurd ht
            (by rw [hex2]; simp), fun _ => ?_⟩
          constructor
          · exact (importLoop_mono env strat pfx exset rest (n + 1) _).2.1 _ (by simp)
          · exact ⟨n, (importLoop_mono env strat pfx exset rest (n + 1) _).2.2.2 _ (by
              simp [mkImportConn])⟩
        · exact importLoop_mem env strat pfx exset hins hupd rest (n + 1) _ hINV2 r hrmem

theorem importLoop_skip_ops (env : ImportEnv) (pfx : GoStr) (exset : GoStr → Bool) :
    ∀ recs : List ExportRecord, ∀ n st,
      ∀ op ∈ (importLoop env .skip pfx exset n recs st).log,
        op ∈ st.log ∨ ∃ r2 ∈ recs, op.connID = applyPfx pfx r2.toConnection.id ∧
          exset (applyPfx pfx r2.toConnection.id) = false
  | [], n, st => by
    rw [importLoop]
    exact fun op hop => Or.inl hop
  | r0 :: rest, n, st => by
    rw [importLoop]
    dsimp only
    by_cases hex : exset (applyPfx pfx r0.toConnection.id) = true
    · rw [if_pos ⟨hex, rfl⟩]
      intro op hop
      rcases importLoop_skip_ops env pfx exset rest (n + 1) _ op hop with h | ⟨r2, hr2, h2⟩
      · exact Or.inl h
      · exact Or.inr ⟨r2, by simp [hr2], h2⟩
    · have hex2 : exset (applyPfx pfx r0.toConnection.id) = false := by simpa using hex
      rw [if_neg (fun hcon => hex hcon.1), if_neg hex]
      split
      · exact fun op hop => Or.inl hop
      · rename_i rows2 heq
        intro op hop
        rcases importLoop_skip_ops env pfx exset rest (n + 1) _ op hop with h | ⟨r2, hr2, h2⟩
        · rcases List.mem_append.mp h with h | h
          · exact Or.inl h
          · simp only [List.mem_singleton] at h
            refine Or.inr ⟨r0, by simp, ?_, hex2⟩
            rw [h]
            rfl
        · exact Or.inr ⟨r2, by simp [hr2], h2⟩

theorem importLoop_skip_lookup (env : ImportEnv) (pfx : GoStr) (exset : GoStr → Bool) :
    ∀ recs : List ExportRecord, ∀ n st, ∀ x, exset x = true →
      lookupConn (importLoop env .skip pfx exset n recs st).rows x = lookupConn st.rows x
  | [], n, st => by
    rw [importLoop]
    exact fun x _ => rfl
  | r0 :: rest, n, st => by
    rw [importLoop]
    dsimp only
    by_cases hex : exset (applyPfx pfx r0.toConnection.id) = true
    · rw [if_pos ⟨hex, rfl⟩]
      intro x hx
      exact importLoop_skip_lookup env pfx exset rest (n + 1) _ x hx
    · have hex2 : exset (applyPfx pfx r0.toConnection.id) = false := by simpa using hex
      rw [if_neg (fun hcon => hex hcon.1), if_neg hex]
      split
      · exact fun x _ => rfl
      · rename_i rows2 heq
        intro x hx
        rw [importLoop_skip_lookup env pfx exset rest (n + 1) _ x hx]
        rw [dbInsert] at heq
        by_cases hie : env.insertErr (applyPfx pfx r0.toConnection.id) = true
        · rw [if_pos hie] at heq
          cases heq
        · rw [if_neg hie] at heq
          simp only [Option.some.injEq] at heq
          rw [← heq]
          dsimp only
          refine lookupConn_append_ne st.rows _ x ?_
          intro hcon
          rw [show ({ r0.toConnection with
              id := applyPfx pfx r0.toConnection.id,
              password := reencrypt env (2 * n) r0.toConnection.password,
              extra := reencrypt env (2 * n + 1) r0.toConnection.extra } : Conn).id =
            applyPfx pfx r0.toConnection.id from rfl] at hcon
          rw [hcon] at hex2
          rw [hex2] at hx
          cases hx

theorem importLoop_log_shape (env : ImportEnv) (strat : CollisionStrategy) (pfx : GoStr)
    (exset : GoStr → Bool) :
    ∀ recs : List ExportRecord, ∀ n st,
      ∀ op ∈ (importLoop env strat pfx exset n recs st).log,
        op ∈ st.log ∨ ∃ r2 ∈ recs, ∃ m,
          op = .insert (mkImportConn env m (applyPfx pfx r2.toConnection.id) r2) ∨
          op = .update (mkImportConn env m (applyPfx pfx r2.toConnection.id) r2)
  | [], n, st => by
    rw [importLoop]
    exact fun op hop => Or.inl hop
  | r0 :: rest, n, st => by
    rw [importLoop]
    dsimp only
    split
    · intro op hop
      rcases importLoop_log_shape env strat pfx exset rest (n + 1) _ op hop with
        h | ⟨r2, hr2, m, h2⟩
      · exact Or.inl h
      · exact Or.inr ⟨r2, by simp [hr2], m, h2⟩
    · split
      · split
        · exact fun op hop => Or.inl hop
        · rename_i rows2 heq
          intro op hop
          rcases importLoop_log_shape env strat pfx exset rest (n + 1) _ op hop with
            h | ⟨r2, hr2, m, h2⟩
          · rcases List.mem_append.mp h with h | h
            · exact Or.inl h
            · simp only [List.mem_singleton] at h
              exact Or.inr ⟨r0, by simp, n, Or.inr (by rw [h]; rfl)⟩
          · exact Or.inr ⟨r2, by simp [hr2], m, h2⟩
      · split
        · exact fun op hop => Or.inl hop
        · rename_i rows2 heq
          intro op hop
          rcases importLoop_log_shape env strat pfx exset rest (n + 1) _ op hop with
            h | ⟨r2, hr2, m, h2⟩
          · rcases List.mem_append.mp h with h | h
            · exact Or.inl h
            · simp only [List.mem_singleton] at h
              exact Or.inr ⟨r0, by simp, n, Or.inl (by rw [h]; rfl)⟩
          · exact Or.inr ⟨r2, by simp [hr2], m, h2⟩

/-! ### Claim C7: collision strategies skip and overwrite -/

/-- C7: in a run whose stages all succeed and whose driver reports no
failures, a record whose effective identifier (prefix + original id)
already exists in the target is, under `skip`, reported in
`SkippedIDs` with no write performed for it and the stored row
unchanged — and under `overwrite`, reported in `OverwrittenIDs` with
an update carrying the interchange record's data (re-encrypted
fields); a record whose effective identifier does not exist is
inserted and reported in `ImportedIDs` under either strategy. -/
theorem import_skip_overwrite (env : ImportEnv) (req : ImportReq)
    (hval : req.targetProfile.validateOk = true)
    (hfk : NewFernetOk req.fileDecryptionKey = true)
    (recs0 : List ExportRecord)
    (hread : ReadEncryptedCSV env.jsonParse env.filePrims req.csvRows = some recs0)
    (hne : recs0 ≠ [])
    (hconn : env.connectFails = false)
    (htk : NewFernetOk req.targetProfile.fernetKey = true)
    (hq : env.queryFails = false)
    (hins : ∀ s2, env.insertErr s2 = false)
    (hupd : ∀ s2, env.updateErr s2 = false)
    (hstrat : req.collisionStrategy = .skip ∨ req.collisionStrategy = .overwrite)
    (r : ExportRecord)
    (hr : r ∈ (if req.connectionIDs ≠ [] then
        recs0.filter (fun r2 => req.connectionIDs.contains r2.connID) else recs0)) :
    (applyPfx req.connPfx r.connID ∈ dbIDs env.db → req.collisionStrategy = .skip →
      applyPfx req.connPfx r.connID ∈ (Import env req).1.skippedIDs ∧
      (∀ op ∈ (Import env req).2.1, op.connID ≠ applyPfx req.connPfx r.connID) ∧
      lookupConn (Import env req).2.2 (applyPfx req.connPfx r.connID) =
        lookupConn env.db (applyPfx req.connPfx r.connID)) ∧
    (applyPfx req.connPfx r.connID ∈ dbIDs env.db → req.collisionStrategy = .overwrite →
      applyPfx req.connPfx r.connID ∈ (Import env req).1.overwrittenIDs ∧
      ∃ m, WriteOp.update (mkImportConn env m (applyPfx req.connPfx r.connID) r) ∈
        (Import env req).2.1) ∧
    (applyPfx req.connPfx r.connID ∉ dbIDs env.db →
      applyPfx req.connPfx r.connID ∈ (Import env req).1.importedIDs ∧
      ∃ m, WriteOp.insert (mkImportConn env m (applyPfx req.connPfx r.connID) r) ∈
        (Import env req).2.1) := by
  set records := (if req.connectionIDs ≠ [] then
      recs0.filter (fun r2 => req.connectionIDs.contains r2.connID) else recs0) with hrecords
  set idsToCheck := records.map (fun r2 => applyPfx req.connPfx r2.connID) with hids
  set cid := applyPfx req.connPfx r.connID with hcid
  have hcidmem : cid ∈ idsToCheck := by
    rw [hids]
    exact List.mem_map.mpr ⟨r, hr, rfl⟩
  have hidsne : idsToCheck ≠ [] := by
    intro hcon
    rw [hcon] at hcidmem
    simp at hcidmem
  set existingIDs := (dbIDs env.db).filter (fun i => idsToCheck.contains i) with hexist
  have hex : GetExistingConnectionIDs env idsToCheck = some existingIDs := by
    rw [GetExistingConnectionIDs, if_neg hidsne, if_neg (by rw [hq]; simp)]
  have himp : Import env req =
      (let st := importLoop env req.collisionStrategy req.connPfx
        (fun i => existingIDs.contains i) 0 records ⟨emptyResult, env.db, []⟩
      (st.res, st.log, st.rows)) := by
    rw [Import, if_neg (by rw [hval]; simp), if_neg (by rw [hfk]; simp)]
    simp only [hread]
    rw [if_neg hne, if_neg (by rw [hconn]; simp), if_neg (by rw [htk]; simp)]
    simp only [← hrecords, ← hids, hex]
    rw [if_neg]
    rintro ⟨hstop, _⟩
    rcases hstrat with h | h <;> rw [h] at hstop <;> cases hstop
  rw [himp]
  dsimp only
  have hbridge : existingIDs.contains cid = true ↔ cid ∈ dbIDs env.db := by
    constructor
    · intro h
      have : cid ∈ existingIDs := by simpa using h
      rw [hexist] at this
      exact (List.mem_filter.mp this).1
    · intro h
      have : cid ∈ existingIDs := by
        rw [hexist]
        refine List.mem_filter.mpr ⟨h, ?_⟩
        simpa using hcidmem
      simpa using this
  have hINV : ∀ i, (fun i => existingIDs.contains i) i = true →
      i ∈ dbIDs (⟨emptyResult, env.db, []⟩ : LoopState).rows := by
    intro i hi
    have : i ∈ existingIDs := by simpa using hi
    rw [hexist] at this
    exact (List.mem_filter.mp this).1
  have hmem := importLoop_mem env req.collisionStrategy req.connPfx
    (fun i => existingIDs.contains i) hins hupd records 0 ⟨emptyResult, env.db, []⟩ hINV r hr
  refine ⟨?_, ?_, ?_⟩
  · intro hdb hskip
    have hctrue : existingIDs.contains cid = true := hbridge.mpr hdb
    refine ⟨hmem.1 hctrue hskip, ?_, ?_⟩
    · intro op hop
      rw [hskip] at hop
      rcases importLoop_skip_ops env req.connPfx (fun i => existingIDs.contains i)
          records 0 ⟨emptyResult, env.db, []⟩ op hop with h | ⟨r2, hr2, h2, h3⟩
      · simp at h
      · intro hcon
        rw [hcon] at h2
        rw [← h2] at h3
        rw [hctrue] at h3
        cases h3
    · rw [hskip]
      exact importLoop_skip_lookup env req.connPfx (fun i => existingIDs.contains i)
        records 0 ⟨emptyResult, env.db, []⟩ cid hctrue
  · intro hdb hov
    have hctrue : existingIDs.contains cid = true := hbridge.mpr hdb
    exact hmem.2.1 hctrue hov
  · intro hdb
    have hcfalse : existingIDs.contains cid = false := by
      cases hcb : existingIDs.contains cid with
      | false => rfl
      | true => exact absurd (hbridge.mp hcb) hdb
    exact hmem.2.2 hcfalse

/-- Witness for C7: the target holds `[99]`, the file carries `[99]`,
strategy `skip` — the record is reported skipped and the stored row is
untouched. -/
theorem import_skip_overwrite_witness :
    applyPfx [] recW.connID ∈ (Import (envW [rowW]) (reqW .skip)).1.skippedIDs ∧
    lookupConn (Import (envW [rowW]) (reqW .skip)).2.2 (applyPfx [] recW.connID) =
      lookupConn [rowW] (applyPfx [] recW.connID) := by
  have h := import_skip_overwrite (envW [rowW]) (reqW .skip) (by decide) (by decide)
    [recW] (by decide) (by decide) rfl (by decide) rfl (fun _ => rfl) (fun _ => rfl)
    (Or.inl rfl) recW (by decide)
  exact ⟨(h.1 (by decide) rfl).1, (h.1 (by decide) rfl).2.2⟩

/-! ### Claim C3: imported secrets re-encrypted under the target key -/

theorem idPrims_ok : PrimsOk idPrims :=
  ⟨fun _ _ => rfl, fun _ h => h, fun _ _ hb => hb,
   fun _ => by simp [idPrims], fun _ x hx => by simp [idPrims] at hx; omega⟩

/-- C3 (amended): every row `Import` writes to the target store (by
insert or update) carries, for each of the password and
extra-parameters fields that was non-empty in the interchange record,
a Fernet token under the target profile's key that decrypts back to
that plaintext; a field that was empty in the interchange record is
stored empty and unencrypted (the `!= ""` guards of the loop). -/
theorem import_writes_encrypted (env : ImportEnv) (req : ImportReq)
    (hT : PrimsOk env.targetPrims)
    (hivlen : ∀ k, (env.ivs k).length = 16)
    (hivB : ∀ k, ByteOk (env.ivs k))
    (recs0 : List ExportRecord)
    (hread : ReadEncryptedCSV env.jsonParse env.filePrims req.csvRows = some recs0)
    (hbytes : ∀ r ∈ recs0, ByteOk r.password ∧ ByteOk r.extra) :
    ∀ op ∈ (Import env req).2.1,
      ∃ r ∈ recs0, ∃ m, ∃ c : Conn,
        (op = .insert c ∨ op = .update c) ∧
        c = mkImportConn env m (applyPfx req.connPfx r.connID) r ∧
        (r.password ≠ [] → fernetDecrypt env.targetPrims c.password = some r.password) ∧
        (r.password = [] → c.password = []) ∧
        (r.extra ≠ [] → fernetDecrypt env.targetPrims c.extra = some r.extra) ∧
        (r.extra = [] → c.extra = []) := by
  intro op hop
  rw [Import] at hop
  by_cases h1 : req.targetProfile.validateOk = false
  · rw [if_pos h1] at hop
    simp at hop
  rw [if_neg h1] at hop
  by_cases h2 : NewFernetOk req.fileDecryptionKey = false
  · rw [if_pos h2] at hop
    simp at hop
  rw [if_neg h2] at hop
  simp only [hread] at hop
  by_cases h3 : recs0 = []
  · rw [if_pos h3] at hop
    simp at hop
  rw [if_neg h3] at hop
  by_cases h4 : env.connectFails = true
  · rw [if_pos h4] at hop
    simp at hop
  rw [if_neg h4] at hop
  by_cases h5 : NewFernetOk req.targetProfile.fernetKey = false
  · rw [if_pos h5] at hop
    simp at hop
  rw [if_neg h5] at hop
  cases hex : GetExistingConnectionIDs env
      ((if req.connectionIDs ≠ [] then
          recs0.filter (fun r2 => req.connectionIDs.contains r2.connID)
        else recs0).map (fun r2 => applyPfx req.connPfx r2.connID)) with
  | none =>
    rw [hex] at hop
    simp at hop
  | some existingIDs =>
    rw [hex] at hop
    dsimp only at hop
    by_cases h6 : req.collisionStrategy = .stop ∧ existingIDs ≠ []
    · rw [if_pos h6] at hop
      simp at hop
    rw [if_neg h6] at hop
    dsimp only at hop
    rcases importLoop_log_shape env req.collisionStrategy req.connPfx
        (fun i => existingIDs.contains i)
        (if req.connectionIDs ≠ [] then
          recs0.filter (fun r2 => req.connectionIDs.contains r2.connID)
        else recs0) 0 ⟨emptyResult, env.db, []⟩ op hop with h | ⟨r2, hr2, m, h7⟩
    · simp at h
    · have hr2recs : r2 ∈ recs0 := by
        by_cases hcf : req.connectionIDs ≠ []
        · rw [if_pos hcf] at hr2
          exact (List.mem_filter.mp hr2).1
        · rw [if_neg hcf] at hr2
          exact hr2
      refine ⟨r2, hr2recs, m,
        mkImportConn env m (applyPfx req.connPfx r2.connID) r2, ?_, rfl, ?_, ?_, ?_, ?_⟩
      · rcases h7 with h7 | h7
        · exact Or.inl h7
        · exact Or.inr h7
      · intro hpne
        show fernetDecrypt env.targetPrims (reencrypt env (2 * m) r2.password) =
          some r2.password
        rw [reencrypt, if_neg hpne]
        exact fernetDecrypt_fernetEncrypt env.targetPrims hT (env.ivs (2 * m))
          (env.tss (2 * m)) r2.password (hivlen _) (hivB _) (hbytes r2 hr2recs).1
      · intro hpe
        show reencrypt env (2 * m) r2.password = []
        rw [reencrypt, if_pos hpe, hpe]
      · intro hene
        show fernetDecrypt env.targetPrims (reencrypt env (2 * m + 1) r2.extra) =
          some r2.extra
        rw [reencrypt, if_neg hene]
        exact fernetDecrypt_fernetEncrypt env.targetPrims hT (env.ivs (2 * m + 1))
          (env.tss (2 * m + 1)) r2.extra (hivlen _) (hivB _) (hbytes r2 hr2recs).2
      · intro hee
        show reencrypt env (2 * m + 1) r2.extra = []
        rw [reencrypt, if_pos hee, hee]

/-- Interchange record with an empty password, for the C3
counterexample. -/
def connDataE : ConnectionData := { connDataW with password := [] }

/-- Environment whose JSON blobs decode to the empty-password record. -/
def envE : ImportEnv := { envW [] with jsonParse := fun _ => some connDataE }

/-- Counterexample to C3 as stated: a record whose password arrived
empty is written with an empty, unencrypted password field — the `!=
""` guard skips encryption — and decrypting the stored field with the
target key fails rather than returning the interchange plaintext. -/
theorem import_empty_field_counterexample :
    ∃ c : Conn, (Import envE (reqW .skip)).2.1 = [WriteOp.insert c] ∧
      (Import envE (reqW .skip)).1.success = true ∧ c.password = [] ∧
      fernetDecrypt envE.targetPrims c.password = none :=
  ⟨mkImportConn envE 0 [99] (mkExportRecord [99] connDataE),
    by decide, by decide, by decide, by decide⟩

/-- Witness for C3 at the concrete fixture: the one (insert) write of
a run importing a record with password `[7]` stores a token decrypting
back to `[7]`. -/
theorem import_writes_encrypted_witness :
    ∃ r ∈ [recW], ∃ m, ∃ c : Conn,
      (WriteOp.insert (mkImportConn (envW []) 0 [99] recW) = .insert c ∨
        WriteOp.insert (mkImportConn (envW []) 0 [99] recW) = .update c) ∧
      c = mkImportConn (envW []) m (applyPfx (reqW .skip).connPfx r.connID) r ∧
      (r.password ≠ [] →
        fernetDecrypt (envW []).targetPrims c.password = some r.password) ∧
      (r.password = [] → c.password = []) ∧
      (r.extra ≠ [] → fernetDecrypt (envW []).targetPrims c.extra = some r.extra) ∧
      (r.extra = [] → c.extra = []) :=
  import_writes_encrypted (envW []) (reqW .skip) idPrims_ok
    (fun _ => rfl) (fun _ x hx => by simp [envW] at hx; omega) [recW] (by decide) (by decide)
    (WriteOp.insert (mkImportConn (envW []) 0 [99] recW)) (by decide)
